import Mathlib

/-!
Verification development for the chapkit service framework: a shallow
embedding of its artifact tree engine, config-artifact linkage, job
scheduler, task execution and serialization helpers, together with proofs
of the documented properties.

Identifiers (ULIDs in the source) are modelled as natural numbers; Python
payload values are modelled by the `PyVal` type below.
-/

namespace Chapkit

/-- Model of a Python value as stored in artifact/config payloads.
`pyobj tyName modName reprChars` stands for an arbitrary non-JSON value
(e.g. an ML model object) carrying its type name, defining module and the
character sequence of its `repr`. -/
inductive PyVal where
  | pynull : PyVal
  | pybool : Bool → PyVal
  | pyint : Int → PyVal
  | pystr : String → PyVal
  | pylist : List PyVal → PyVal
  | pydict : List (String × PyVal) → PyVal
  | pyobj : String → String → List Char → PyVal

/-- One row of the `artifacts` adjacency-list table: id, optional parent
reference (advisory, may dangle), JSON payload and the derived depth
`level` (source: `chapkit.modules.artifact.models.Artifact`). -/
structure Artifact where
  id : Nat
  parent_id : Option Nat
  data : PyVal
  level : Nat

/-- The artifact store: the list of rows of the `artifacts` table. -/
abbrev Store := List Artifact

/-- Row lookup by primary key (`session.get(Artifact, id)`). -/
def findById (s : Store) (i : Nat) : Option Artifact :=
  s.find? (fun a => a.id == i)

/-- Modelled from the spec: `ArtifactManager._compute_level` (the artifact
manager module is absent from src/; only its tests and callers remain).
Level is 0 when the parent reference is absent or dangles, otherwise the
parent's level plus one. -/
def compute_level (s : Store) (pid : Option Nat) : Nat :=
  match pid with
  | none => 0
  | some p =>
    match findById s p with
    | none => 0
    | some a => a.level + 1

/-- Ids of the children of `i`: rows whose `parent_id` references `i`. -/
def childrenIds (s : Store) (i : Nat) : List Nat :=
  (s.filter (fun a => a.parent_id == some i)).map (fun a => a.id)

/-- Fuel-bounded collection of the ids of `i` and its descendants by
walking child links downward. -/
def subtreeAux (s : Store) : Nat → Nat → List Nat
  | 0, i => [i]
  | fuel + 1, i => i :: (childrenIds s i).flatMap (subtreeAux s fuel)

/-- Ids in the subtree rooted at `i`; `s.length` fuel covers every
descendant chain in an acyclic store. -/
def subtreeIds (s : Store) (i : Nat) : List Nat :=
  subtreeAux s s.length i

/-- Modelled from the spec: `ArtifactRepository.find_subtree` (repository
module absent from src/): the node `id` plus all transitive descendants,
empty when `id` is unknown. -/
def find_subtree (s : Store) (i : Nat) : List Artifact :=
  match findById s i with
  | none => []
  | some _ => s.filter (fun a => a.id ∈ subtreeIds s i)

/-- The chain of stored ancestors of `i`: repeatedly follow `parent_id`
while the referenced row exists, collecting the visited ancestor ids. -/
def parentChain (s : Store) : Nat → Nat → List Nat
  | 0, _ => []
  | fuel + 1, i =>
    match findById s i with
    | none => []
    | some a =>
      match a.parent_id with
      | none => []
      | some p => if (findById s p).isSome then p :: parentChain s fuel p else []

/-- Number of stored ancestors of `i`: the depth the engine's level
invariant assigns to `i`. -/
def parentDepth (s : Store) (i : Nat) (fuel : Nat) : Nat :=
  (parentChain s fuel i).length

/-- `x` is reachable from `i` in exactly `n` downward parent-link steps. -/
def DescN (s : Store) : Nat → Nat → Nat → Prop
  | 0, i, x => x = i
  | n + 1, i, x => ∃ a ∈ s, a.id = x ∧ ∃ j, a.parent_id = some j ∧ DescN s n i j

/-- `x` belongs to the subtree rooted at `i` (is `i` or a transitive
descendant of it). -/
def Desc (s : Store) (i x : Nat) : Prop :=
  ∃ n, DescN s n i x

/-- The level invariant of the artifact tree engine: every stored row's
`level` is 0 when the parent is absent or missing, else parent level + 1. -/
def LevelInv (s : Store) : Prop :=
  ∀ a ∈ s, a.level = compute_level s a.parent_id

/-- Ids of the rows of a store, in row order. -/
def storeIds (s : Store) : List Nat :=
  s.map (fun a => a.id)

/-- Acyclicity of the parent graph, witnessed by a rank function that
strictly decreases along parent links between stored rows. -/
def ParentAcyclic (s : Store) : Prop :=
  ∃ rank : Nat → Nat, ∀ a ∈ s, ∀ b ∈ s, a.parent_id = some b.id → rank b.id < rank a.id

/-- Input schema for `save`: caller-supplied id, optional parent and
payload (source: `ArtifactIn`; ids are caller-provided or assigned, both
reduce to an explicit id here). -/
structure ArtifactIn where
  id : Nat
  parent_id : Option Nat
  data : PyVal

/-- Replace the payload and parent reference of row `i` in place. -/
def setRow (s : Store) (i : Nat) (pid : Option Nat) (d : PyVal) : Store :=
  s.map (fun a => if a.id == i then { a with parent_id := pid, data := d } else a)

/-- Replace only the payload of row `i`. -/
def setData (s : Store) (i : Nat) (d : PyVal) : Store :=
  s.map (fun a => if a.id == i then { a with data := d } else a)

/-- Recompute the level of every row whose id lies in `ids` as its count
of stored ancestors, walking the parent chain of the (already updated)
store; other rows are untouched. -/
def reassignLevels (s : Store) (ids : List Nat) : Store :=
  s.map (fun a => if a.id ∈ ids then { a with level := parentDepth s a.id s.length } else a)

/-- Modelled from the spec: `ArtifactManager.save` (manager module absent
from src/). Upsert: a new id is inserted with level computed from its
current parent; an existing id with unchanged parent only updates the
payload; an existing id with a changed parent is re-rooted and the levels
of its whole current subtree are recomputed, each as parent level + 1
walking down. -/
def save (s : Store) (x : ArtifactIn) : Store :=
  match findById s x.id with
  | none => s ++ [⟨x.id, x.parent_id, x.data, compute_level s x.parent_id⟩]
  | some old =>
    if old.parent_id == x.parent_id then
      setData s x.id x.data
    else
      let s1 := setRow s x.id x.parent_id x.data
      reassignLevels s1 (subtreeIds s1 x.id)

/-- Upsert one row without touching any level (first pass of `save_all`). -/
def upsertRow (s : Store) (x : ArtifactIn) : Store :=
  match findById s x.id with
  | none => s ++ [⟨x.id, x.parent_id, x.data, 0⟩]
  | some _ => setRow s x.id x.parent_id x.data

/-- Modelled from the spec: `ArtifactManager.save_all` (manager module
absent from src/). Batched save: all rows are upserted first, then the
level of every batch node and of every node in its current subtree is
resolved from its own parent, so resolution is independent of batch
ordering even when a parent is another node of the same batch. -/
def save_all (s : Store) (xs : List ArtifactIn) : Store :=
  let s1 := xs.foldl upsertRow s
  reassignLevels s1 (xs.flatMap (fun x => subtreeIds s1 x.id))

/-- A named hierarchy decorating read-time projections: depth → label
(source: `ArtifactHierarchy`, absent from src/; behavior fixed by
`test_hierarchy.py`). -/
structure ArtifactHierarchy where
  name : String
  level_labels : List (Nat × String)

/-- Modelled from the spec: `ArtifactHierarchy.label_for` — the configured
label for a depth when present, else the fallback string `"level_{n}"`. -/
def label_for (h : ArtifactHierarchy) (d : Nat) : String :=
  match h.level_labels.lookup d with
  | some l => l
  | none => "level_" ++ toString d

/-- The label attached to a projected node of level `d`: the hierarchy
lookup when a hierarchy is configured, `none` otherwise. -/
def levelLabelOf (h : Option ArtifactHierarchy) (d : Nat) : Option String :=
  h.map (fun hh => label_for hh d)

/-- Ephemeral read projection of an artifact: the row, its resolved level
label, the hierarchy name, the linked config id (root nodes only) and an
optional children list (source: `ArtifactTreeNode`). -/
inductive TreeNode where
  | node (a : Artifact) (level_label : Option String) (hierarchy : Option String)
      (config : Option Nat) (children : Option (List TreeNode))

/-- The artifact row stored at the root of a tree node. -/
def TreeNode.art : TreeNode → Artifact
  | .node a _ _ _ _ => a

/-- The id of the artifact at the root of a tree node. -/
def TreeNode.rootId (t : TreeNode) : Nat := t.art.id

/-- The children list of a tree node (absent for shallow projections). -/
def TreeNode.children : TreeNode → Option (List TreeNode)
  | .node _ _ _ _ cs => cs

/-- The resolved level label of a tree node. -/
def TreeNode.level_label : TreeNode → Option String
  | .node _ l _ _ _ => l

/-- The hierarchy name attached to a tree node. -/
def TreeNode.hierarchy : TreeNode → Option String
  | .node _ _ h _ _ => h

/-- The config id decorating a tree node (populated on root nodes only). -/
def TreeNode.config : TreeNode → Option Nat
  | .node _ _ _ c _ => c

/-- Modelled from the spec: the recursive assembly step of
`ArtifactManager.build_tree` — each node's children are the rows of the
flat subtree result whose `parent_id` references it, in row order, the
config decoration being attached at the requested root only. -/
def buildNode (rows : List Artifact) (h : Option ArtifactHierarchy) :
    Option Nat → Nat → Artifact → TreeNode
  | cfg, 0, a =>
    .node a (levelLabelOf h a.level) (h.map ArtifactHierarchy.name) cfg (some [])
  | cfg, fuel + 1, a =>
    .node a (levelLabelOf h a.level) (h.map ArtifactHierarchy.name) cfg
      (some ((rows.filter (fun b => b.parent_id == some a.id)).map
        (buildNode rows h none fuel)))

/-- Node count of a projected tree. -/
def TreeNode.size : TreeNode → Nat
  | .node _ _ _ _ none => 1
  | .node _ _ _ _ (some cs) => 1 + sizeList cs
where
  /-- Total node count of a list of trees. -/
  sizeList : List TreeNode → Nat
  | [] => 0
  | t :: ts => t.size + sizeList ts

/-- The (parent id, child id) edges of a projected tree. -/
def TreeNode.edges : TreeNode → List (Nat × Nat)
  | .node _ _ _ _ none => []
  | .node a _ _ _ (some cs) =>
    cs.map (fun c => (a.id, c.rootId)) ++ edgesList cs
where
  /-- All edges contributed by a list of trees. -/
  edgesList : List TreeNode → List (Nat × Nat)
  | [] => []
  | t :: ts => t.edges ++ edgesList ts

/-- `Occurs u t`: the node `u` appears somewhere in the tree `t`. -/
inductive Occurs : TreeNode → TreeNode → Prop
  | here (t : TreeNode) : Occurs t t
  | child {u c : TreeNode} {a l h cfg} {cs : List TreeNode} :
      c ∈ cs → Occurs u c → Occurs u (.node a l h cfg (some cs))

/-- One row of the `config_artifacts` junction table: (config id,
artifact id); the artifact side is unique (source: `ConfigArtifact`). -/
structure DB where
  artifacts : Store
  configIds : List Nat
  links : List (Nat × Nat)

/-- `ConfigRepository.find_artifacts_for_config`: all root artifacts
currently linked to `cid`, via the junction rows. -/
def find_artifacts_for_config (db : DB) (cid : Nat) : List Artifact :=
  (db.links.filter (fun l => l.1 == cid)).filterMap (fun l => findById db.artifacts l.2)

/-- `ConfigRepository.find_by_root_artifact_id`: the config linked to a
root artifact, if any. -/
def find_by_root_artifact_id (db : DB) (aid : Nat) : Option Nat :=
  match db.links.find? (fun l => l.2 == aid) with
  | none => none
  | some l => if l.1 ∈ db.configIds then some l.1 else none

/-- Modelled from the spec: `ArtifactManager.build_tree` (manager module
absent from src/): absent when the id is unknown; otherwise the nested
tree assembled from the flat `find_subtree` rows, decorated with hierarchy
labels and, at the root only, with the linked config. -/
def build_tree (db : DB) (h : Option ArtifactHierarchy) (i : Nat) : Option TreeNode :=
  match findById db.artifacts i with
  | none => none
  | some a =>
    let rows := find_subtree db.artifacts i
    let cfg := if a.parent_id = none then find_by_root_artifact_id db a.id else none
    some (buildNode rows h cfg rows.length a)

/-- Modelled from the spec: `ArtifactManager.expand_artifact` (manager
module absent from src/): single-node projection with children explicitly
absent and the config decoration on root nodes only. -/
def expand_artifact (db : DB) (h : Option ArtifactHierarchy) (i : Nat) : Option TreeNode :=
  match findById db.artifacts i with
  | none => none
  | some a =>
    let cfg := if a.parent_id = none then find_by_root_artifact_id db a.id else none
    some (.node a (levelLabelOf h a.level) (h.map ArtifactHierarchy.name) cfg none)

/-- Modelled from the spec: the subtree projection returned by
`ArtifactManager.find_subtree` — every row of the flat subtree decorated
with its resolved level label and hierarchy name. -/
def manager_find_subtree (s : Store) (h : Option ArtifactHierarchy) (i : Nat) :
    List TreeNode :=
  (find_subtree s i).map (fun a =>
    .node a (levelLabelOf h a.level) (h.map ArtifactHierarchy.name) none none)

/-- Outcomes of `ConfigRepository.link_artifact`: NotFound for an unknown
artifact, Validation for a non-root artifact, Conflict when the
storage-level uniqueness of `artifact_id` rejects a second link. -/
inductive LinkError where
  | notFound
  | validation
  | conflict
deriving DecidableEq

/-- `ConfigRepository.link_artifact`: fetch the artifact (`ValueError` /
NotFound when absent), reject a non-absent parent (Validation), then add
the junction row; the unique constraint on `artifact_id`
(`uq_artifact_id`) rejects an already-linked artifact at flush. -/
def link_artifact (db : DB) (cid aid : Nat) : Except LinkError DB :=
  match findById db.artifacts aid with
  | none => .error .notFound
  | some a =>
    match a.parent_id with
    | some _ => .error .validation
    | none =>
      if db.links.any (fun l => l.2 == aid) then .error .conflict
      else .ok { db with links := db.links ++ [(cid, aid)] }

/-- Delete one artifact row; the `ondelete=CASCADE` foreign key on
`config_artifacts.artifact_id` removes its junction rows with it. -/
def deleteArtifactRow (db : DB) (aid : Nat) : DB :=
  { db with
    artifacts := db.artifacts.filter (fun a => a.id ≠ aid),
    links := db.links.filter (fun l => l.2 ≠ aid) }

/-- Delete the config row itself; the `ondelete=CASCADE` foreign key on
`config_artifacts.config_id` removes its junction rows with it. -/
def deleteConfigRow (db : DB) (cid : Nat) : DB :=
  { db with
    configIds := db.configIds.filter (fun c => c ≠ cid),
    links := db.links.filter (fun l => l.1 ≠ cid) }

/-- `ConfigRepository.delete_by_id`: for each linked root artifact, delete
every artifact of its subtree, then delete the config row itself. -/
def config_delete_by_id (db : DB) (cid : Nat) : DB :=
  let linked := find_artifacts_for_config db cid
  let db1 := linked.foldl
    (fun d r => (find_subtree d.artifacts r.id).foldl
      (fun d2 a => deleteArtifactRow d2 a.id) d) db
  deleteConfigRow db1 cid

/-- Modelled from the spec: `ArtifactRepository.get_root_artifact`
(repository module absent from src/): walk the parent chain upward to the
root; a dangling parent reference is treated as parent-absent. -/
def get_root_artifact (s : Store) : Nat → Nat → Option Artifact
  | 0, _ => none
  | fuel + 1, i =>
    match findById s i with
    | none => none
    | some a =>
      match a.parent_id with
      | none => some a
      | some p =>
        if (findById s p).isSome then get_root_artifact s fuel p else some a

/-- `ConfigManager.get_config_for_artifact`: walk the parent chain to the
root, then look up its linked config; absent when the artifact is unknown
or the root has no linked config. -/
def get_config_for_artifact (db : DB) (aid : Nat) : Option Nat :=
  match get_root_artifact db.artifacts (db.artifacts.length) aid with
  | none => none
  | some root => find_by_root_artifact_id db root.id

/-- Job lifecycle states of the scheduler
(pending → running → {completed, failed}; pending/running → canceled). -/
inductive JobStatus where
  | pending
  | running
  | completed
  | failed
  | canceled
deriving DecidableEq

/-- Modelled from the spec: the observable state of `AIOJobScheduler`
(scheduler module absent from src/): the job records in submission order
and the configured capacity (`none` = unbounded). -/
structure SchedState where
  jobs : List (Nat × JobStatus)
  maxConcurrency : Option Nat

/-- Ids of the job records. -/
def jobIds (σ : SchedState) : List Nat :=
  σ.jobs.map (fun j => j.1)

/-- Number of job records currently observed in status `running`. -/
def runningCount (σ : SchedState) : Nat :=
  (σ.jobs.filter (fun j => j.2 == JobStatus.running)).length

/-- Overwrite the status of job `i`. -/
def setStatus (σ : SchedState) (i : Nat) (st : JobStatus) : SchedState :=
  { σ with jobs := σ.jobs.map (fun j => if j.1 == i then (j.1, st) else j) }

/-- A freshly created scheduler with capacity `k`. -/
def initSched (k : Option Nat) : SchedState :=
  ⟨[], k⟩

/-- Modelled from the spec: the transitions of `AIOJobScheduler`
(scheduler module absent from src/). `add_job` appends a fresh pending
record; a pending job starts only while free capacity remains; a running
job completes or fails; a pending or running job is cooperatively
canceled; `delete` removes a record. -/
inductive SchedStep : SchedState → SchedState → Prop
  | submit (σ : SchedState) (i : Nat) (h : i ∉ jobIds σ) :
      SchedStep σ { σ with jobs := σ.jobs ++ [(i, .pending)] }
  | start (σ : SchedState) (i : Nat) (h : (i, JobStatus.pending) ∈ σ.jobs)
      (hcap : ∀ k, σ.maxConcurrency = some k → runningCount σ < k) :
      SchedStep σ (setStatus σ i .running)
  | complete (σ : SchedState) (i : Nat) (h : (i, JobStatus.running) ∈ σ.jobs) :
      SchedStep σ (setStatus σ i .completed)
  | fail (σ : SchedState) (i : Nat) (h : (i, JobStatus.running) ∈ σ.jobs) :
      SchedStep σ (setStatus σ i .failed)
  | cancel (σ : SchedState) (i : Nat)
      (h : (i, JobStatus.pending) ∈ σ.jobs ∨ (i, JobStatus.running) ∈ σ.jobs) :
      SchedStep σ (setStatus σ i .canceled)
  | delete (σ : SchedState) (i : Nat) :
      SchedStep σ { σ with jobs := σ.jobs.filter (fun j => j.1 ≠ i) }

/-- Scheduler states reachable from a fresh scheduler with capacity `k`. -/
inductive SchedReachable (k : Option Nat) : SchedState → Prop
  | init : SchedReachable k (initSched k)
  | step {σ σ' : SchedState} : SchedReachable k σ → SchedStep σ σ' → SchedReachable k σ'

/-- `_is_json_serializable` (source: `chapkit.core.types`): `json.dumps`
succeeds exactly when no opaque non-JSON object occurs in the value. -/
def is_json_serializable : PyVal → Bool
  | .pynull | .pybool _ | .pyint _ | .pystr _ => true
  | .pyobj _ _ _ => false
  | .pylist xs => serializableList xs
  | .pydict kvs => serializableKVs kvs
where
  /-- All elements of a list are JSON-serializable. -/
  serializableList : List PyVal → Bool
  | [] => true
  | x :: xs => is_json_serializable x && serializableList xs
  /-- All values of a dict are JSON-serializable. -/
  serializableKVs : List (String × PyVal) → Bool
  | [] => true
  | kv :: kvs => is_json_serializable kv.2 && serializableKVs kvs

/-- The Python type name of a value (`type(value).__name__`). -/
def typeNameOf : PyVal → String
  | .pynull => "NoneType"
  | .pybool _ => "bool"
  | .pyint _ => "int"
  | .pystr _ => "str"
  | .pylist _ => "list"
  | .pydict _ => "dict"
  | .pyobj ty _ _ => ty

/-- The defining module of a value's type (`type(value).__module__`). -/
def moduleOf : PyVal → String
  | .pyobj _ m _ => m
  | _ => "builtins"

/-- The character sequence of `repr(value)`; opaque objects carry theirs. -/
def reprOf : PyVal → List Char
  | .pynull => "None".data
  | .pybool b => if b then "True".data else "False".data
  | .pyint n => (toString n).data
  | .pystr st => ('\'' :: st.data) ++ ['\'']
  | .pylist _ => "[...]".data
  | .pydict _ => "{...}".data
  | .pyobj _ _ r => r

/-- Truncation applied by `_create_serialization_metadata`: reprs longer
than 200 characters are cut to 200 and suffixed with an ellipsis. -/
def truncRepr (r : List Char) : List Char :=
  if r.length > 200 then r.take 200 ++ "...".data else r

/-- `_create_serialization_metadata` (source: `chapkit.core.types`): the
descriptive record substituted for a non-serializable value. -/
def create_serialization_metadata (v : PyVal) (is_full_object : Bool) : PyVal :=
  .pydict
    [("_type", .pystr (typeNameOf v)),
     ("_module", .pystr (moduleOf v)),
     ("_repr", .pystr (String.mk (truncRepr (reprOf v)))),
     ("_serialization_error", .pystr (if is_full_object then
        "Value is not JSON-serializable. Access the original object from storage if needed."
      else
        "Value is not JSON-serializable."))]

/-- `_serialize_with_metadata` (source: `chapkit.core.types`): dict fields
are serialized individually, serializable fields passing through and
non-serializable ones replaced by metadata; a non-dict value passes
through when serializable and is replaced as a whole otherwise. -/
def serialize_with_metadata : PyVal → PyVal
  | .pydict kvs =>
    .pydict (kvs.map (fun kv =>
      if is_json_serializable kv.2 then kv
      else (kv.1, create_serialization_metadata kv.2 false)))
  | v =>
    if is_json_serializable v then v
    else create_serialization_metadata v true

/-- One row of the `tasks` table as used by `TaskManager`: command,
task type (`"python"` or `"shell"`), enabled flag and optional parameter
dict. -/
structure TaskRow where
  id : Nat
  command : String
  task_type : String
  enabled : Bool
  parameters : Option PyVal

/-- The collaborators and observable state of `TaskManager` together with
its scheduler: the task table, whether a scheduler / artifact manager is
configured, the jobs submitted so far (id and closure kind) and the next
job id the scheduler would assign. -/
structure TaskManagerState where
  tasks : List TaskRow
  hasScheduler : Bool
  hasArtifactManager : Bool
  submitted : List (Nat × String)
  nextJobId : Nat

/-- Task row lookup by id (`TaskRepository.find_by_id`). -/
def findTask (ts : List TaskRow) (i : Nat) : Option TaskRow :=
  ts.find? (fun t => t.id == i)

/-- `TaskManager.execute_task` (source: `chapkit.modules.task.manager`):
raises synchronously — submitting nothing — when no scheduler or artifact
manager is configured, the task id is unknown or the task is disabled;
otherwise submits one job (routed on the task type) and returns its id. -/
def execute_task (m : TaskManagerState) (taskId : Nat) :
    TaskManagerState × Except String Nat :=
  if !m.hasScheduler then
    (m, .error "Task execution requires a scheduler. Use ServiceBuilder.with_jobs() to enable.")
  else if !m.hasArtifactManager then
    (m, .error "Task execution requires artifacts. Use ServiceBuilder.with_artifacts() before with_tasks().")
  else
    match findTask m.tasks taskId with
    | none => (m, .error "Task not found")
    | some t =>
      if !t.enabled then (m, .error "Cannot execute disabled task")
      else
        let kind := if t.task_type == "python" then "python" else "shell"
        ({ m with
            submitted := m.submitted ++ [(m.nextJobId, kind)],
            nextJobId := m.nextJobId + 1 },
          .ok m.nextJobId)

/-- The structured description of a raised Python exception as recorded by
`_execute_python`: `type(e).__name__`, `str(e)`, `traceback.format_exc()`. -/
structure PyExcInfo where
  typeName : String
  message : String
  traceback : String

/-- The environment `_execute_python` runs in: collaborator presence, the
task table, the `TaskRegistry` (each registered function maps its
parameters to a result or a raised exception), the artifact store and the
id the artifact manager would assign next. Timestamps of the task snapshot
are not modelled. -/
structure PyEnv where
  hasDatabase : Bool
  hasArtifactManager : Bool
  tasks : List TaskRow
  registry : List (String × (Option PyVal → Except PyExcInfo PyVal))
  artifacts : Store
  freshId : Nat

/-- The task snapshot captured before execution (id, command, task type
and parameters fields of the `task_snapshot` dict). -/
def taskSnapshot (t : TaskRow) : PyVal :=
  .pydict
    [("id", .pystr (toString t.id)),
     ("command", .pystr t.command),
     ("task_type", .pystr t.task_type),
     ("parameters", t.parameters.getD .pynull)]

/-- `TaskManager._execute_python` (source: `chapkit.modules.task.manager`):
precondition failures and a missing registry entry raise out of the
closure; a raising registered function is caught and recorded, and in
either case a new root artifact holding the result data is created and its
id returned. -/
def execute_python (env : PyEnv) (taskId : Nat) : Store × Except String Nat :=
  if !env.hasDatabase then
    (env.artifacts, .error "Database instance required for task execution")
  else if !env.hasArtifactManager then
    (env.artifacts, .error "ArtifactManager instance required for task execution")
  else
    match findTask env.tasks taskId with
    | none => (env.artifacts, .error "Task not found")
    | some t =>
      match env.registry.lookup t.command with
      | none => (env.artifacts, .error "Python function not found in registry")
      | some f =>
        let result_data : PyVal :=
          match f t.parameters with
          | .ok r =>
            .pydict [("task", taskSnapshot t), ("result", r), ("error", .pynull)]
          | .error e =>
            .pydict
              [("task", taskSnapshot t), ("result", .pynull),
               ("error", .pydict
                 [("type", .pystr e.typeName),
                  ("message", .pystr e.message),
                  ("traceback", .pystr e.traceback)])]
        (save env.artifacts ⟨env.freshId, none, result_data⟩, .ok env.freshId)

/-! ### Basic store lemmas -/

theorem findById_eq_some_iff {s : Store} {i : Nat} {a : Artifact} :
    findById s i = some a → a ∈ s ∧ a.id = i := by
  intro h
  have hmem := List.mem_of_find?_eq_some h
  have hp := List.find?_some h
  exact ⟨hmem, by simpa using hp⟩

theorem findById_eq_none_iff {s : Store} {i : Nat} :
    findById s i = none ↔ ∀ a ∈ s, a.id ≠ i := by
  unfold findById
  rw [List.find?_eq_none]
  constructor
  · intro h a ha
    have := h a ha
    simpa using this
  · intro h a ha
    simpa using h a ha

theorem findById_of_mem {s : Store} {a : Artifact}
    (hn : (storeIds s).Nodup) (ha : a ∈ s) : findById s a.id = some a := by
  induction s with
  | nil => cases ha
  | cons b t ih =>
    have hn' : (storeIds t).Nodup := (List.nodup_cons.mp hn).2
    have hbt : b.id ∉ storeIds t := (List.nodup_cons.mp hn).1
    rcases List.mem_cons.mp ha with rfl | hat
    · simp [findById, List.find?]
    · have hne : b.id ≠ a.id := by
        intro he
        exact hbt (he ▸ List.mem_map_of_mem (fun x => x.id) hat)
      have : (b.id == a.id) = false := by simpa using hne
      simpa [findById, List.find?, this] using ih hn' hat

theorem eq_of_mem_id_eq {s : Store} {a b : Artifact}
    (hn : (storeIds s).Nodup) (ha : a ∈ s) (hb : b ∈ s) (hid : a.id = b.id) : a = b := by
  have h1 := findById_of_mem hn ha
  have h2 := findById_of_mem hn hb
  rw [hid] at h1
  exact Option.some.inj (h1.symm.trans h2)

theorem length_filter_le_of_imp {α : Type} {l : List α} {p q : α → Bool}
    (hpq : ∀ x ∈ l, p x = true → q x = true) :
    (l.filter p).length ≤ (l.filter q).length := by
  induction l with
  | nil => simp
  | cons b t ih =>
    have ih' := ih (fun x hx => hpq x (List.mem_cons_of_mem _ hx))
    by_cases hb : p b = true
    · rw [List.filter_cons_of_pos hb, List.filter_cons_of_pos (hpq b (List.mem_cons_self _ _) hb)]
      simpa using ih'
    · rw [List.filter_cons_of_neg hb]
      by_cases hqb : q b = true
      · rw [List.filter_cons_of_pos hqb]
        exact ih'.trans (by simp)
      · rw [List.filter_cons_of_neg hqb]
        exact ih'

theorem length_filter_lt_of_witness {α : Type} {l : List α} {p q : α → Bool}
    (hpq : ∀ x ∈ l, p x = true → q x = true) {w : α} (hw : w ∈ l)
    (hqw : q w = true) (hpw : p w = false) :
    (l.filter p).length < (l.filter q).length := by
  induction l with
  | nil => cases hw
  | cons b t ih =>
    have hpq' : ∀ x ∈ t, p x = true → q x = true := fun x hx => hpq x (List.mem_cons_of_mem _ hx)
    rcases List.mem_cons.mp hw with rfl | hwt
    · rw [List.filter_cons_of_neg (by simp [hpw]), List.filter_cons_of_pos hqw]
      have := length_filter_le_of_imp hpq'
      simpa [Nat.lt_succ_iff] using this
    · have hlt := ih hpq' hwt
      by_cases hb : p b = true
      · rw [List.filter_cons_of_pos hb, List.filter_cons_of_pos (hpq b (List.mem_cons_self _ _) hb)]
        simpa using hlt
      · rw [List.filter_cons_of_neg hb]
        by_cases hqb : q b = true
        · rw [List.filter_cons_of_pos hqb]
          exact hlt.trans (by simp)
        · rw [List.filter_cons_of_neg hqb]
          exact hlt

theorem length_filter_or_disjoint {α : Type} {l : List α} {p q : α → Bool}
    (hdisj : ∀ x ∈ l, ¬(p x = true ∧ q x = true)) :
    (l.filter (fun x => p x || q x)).length = (l.filter p).length + (l.filter q).length := by
  induction l with
  | nil => simp
  | cons b t ih =>
    have ih' := ih (fun x hx => hdisj x (List.mem_cons_of_mem _ hx))
    by_cases hb : p b = true
    · have hqb : q b = false := by
        by_contra hq
        exact hdisj b (List.mem_cons_self _ _) ⟨hb, by simpa using hq⟩
      simp only [List.filter_cons, hb, hqb, Bool.true_or, Bool.false_eq_true, if_true, if_false,
        List.length_cons]
      omega
    · have hb' : p b = false := by simpa using hb
      by_cases hqb : q b = true
      · simp only [List.filter_cons, hb', hqb, Bool.false_or, Bool.false_eq_true, if_true, if_false,
          List.length_cons]
        omega
      · have hqb' : q b = false := by simpa using hqb
        simp only [List.filter_cons, hb', hqb', Bool.false_or, Bool.false_eq_true, if_false]
        exact ih'

/-! ### Descendant relation and subtree membership -/

theorem descN_of_child {s : Store} {a : Artifact} {i x n : Nat}
    (hc : a ∈ s) (hcp : a.parent_id = some i) (h : DescN s n a.id x) :
    DescN s (n + 1) i x := by
  induction n generalizing x with
  | zero =>
    exact ⟨a, hc, h ▸ rfl, i, hcp, rfl⟩
  | succ n ih =>
    obtain ⟨b, hb, hbid, j, hpj, hdn⟩ := h
    exact ⟨b, hb, hbid, j, hpj, ih hdn⟩

theorem descN_top_decomp {s : Store} {i x n : Nat} :
    DescN s (n + 1) i x ↔ ∃ c ∈ s, c.parent_id = some i ∧ DescN s n c.id x := by
  constructor
  · intro h
    induction n generalizing x with
    | zero =>
      obtain ⟨a, ha, haid, j, hpj, hj⟩ := h
      cases hj
      exact ⟨a, ha, hpj, haid.symm⟩
    | succ n ih =>
      obtain ⟨b, hb, hbid, j, hpj, hdn⟩ := h
      obtain ⟨c, hc, hcp, hdc⟩ := ih hdn
      exact ⟨c, hc, hcp, b, hb, hbid, j, hpj, hdc⟩
  · rintro ⟨c, hc, hcp, hdc⟩
    exact descN_of_child hc hcp hdc

theorem mem_childrenIds {s : Store} {i c : Nat} :
    c ∈ childrenIds s i ↔ ∃ a ∈ s, a.parent_id = some i ∧ a.id = c := by
  simp only [childrenIds, List.mem_map, List.mem_filter]
  constructor
  · rintro ⟨a, ⟨ha, hp⟩, rfl⟩
    exact ⟨a, ha, by simpa using hp, rfl⟩
  · rintro ⟨a, ha, hp, rfl⟩
    exact ⟨a, ⟨ha, by simpa using hp⟩, rfl⟩

theorem mem_subtreeAux {s : Store} {fuel i x : Nat} :
    x ∈ subtreeAux s fuel i ↔ ∃ n ≤ fuel, DescN s n i x := by
  induction fuel generalizing i with
  | zero =>
    simp only [subtreeAux, List.mem_singleton]
    constructor
    · intro h
      exact ⟨0, le_refl 0, h⟩
    · rintro ⟨n, hn, hd⟩
      interval_cases n
      exact hd
  | succ fuel ih =>
    simp only [subtreeAux, List.mem_cons, List.mem_flatMap]
    constructor
    · rintro (rfl | ⟨c, hc, hx⟩)
      · exact ⟨0, Nat.zero_le _, rfl⟩
      · obtain ⟨a, ha, hp, rfl⟩ := mem_childrenIds.mp hc
        obtain ⟨n, hn, hd⟩ := ih.mp hx
        exact ⟨n + 1, Nat.succ_le_succ hn, descN_of_child ha hp hd⟩
    · rintro ⟨n, hn, hd⟩
      match n, hd with
      | 0, hd => exact Or.inl hd
      | n + 1, hd =>
        obtain ⟨c, hc, hcp, hdc⟩ := descN_top_decomp.mp hd
        exact Or.inr ⟨c.id, mem_childrenIds.mpr ⟨c, hc, hcp, rfl⟩,
          ih.mpr ⟨n, Nat.le_of_succ_le_succ hn, hdc⟩⟩

theorem descN_count_aux {s : Store} (rank : Nat → Nat)
    (hr : ∀ a ∈ s, ∀ b ∈ s, a.parent_id = some b.id → rank b.id < rank a.id) :
    ∀ n i x, DescN s (n + 1) i x →
      ∃ a ∈ s, a.id = x ∧ n + 1 ≤ (s.filter (fun b => rank b.id < rank a.id)).length + 1 := by
  intro n
  induction n with
  | zero =>
    rintro i x ⟨a, ha, haid, j, hpj, hj⟩
    exact ⟨a, ha, haid, by omega⟩
  | succ n ih =>
    rintro i x ⟨a, ha, haid, j, hpj, hdn⟩
    obtain ⟨b, hb, hbid, hcnt⟩ := ih i j hdn
    have hrk : rank b.id < rank a.id := hr a ha b hb (by rw [hbid]; exact hpj)
    have hlt : (s.filter (fun c => rank c.id < rank b.id)).length <
        (s.filter (fun c => rank c.id < rank a.id)).length := by
      refine @length_filter_lt_of_witness _ _ _ _ ?_ b ?_ ?_ ?_
      · intro c _ hc
        have : rank c.id < rank b.id := by simpa using hc
        simp only [decide_eq_true_eq]
        omega
      · exact hb
      · simpa using hrk
      · simp
    exact ⟨a, ha, haid, by omega⟩

theorem descN_le_length {s : Store} (hacyc : ParentAcyclic s) {n i x : Nat}
    (h : DescN s n i x) : n ≤ s.length := by
  match n, h with
  | 0, _ => exact Nat.zero_le _
  | n + 1, h =>
    obtain ⟨rank, hr⟩ := hacyc
    obtain ⟨a, ha, _, hcnt⟩ := descN_count_aux rank hr n i x h
    have hlt : (s.filter (fun b => rank b.id < rank a.id)).length < s.length := by
      have := @length_filter_lt_of_witness _ s
        (fun b => rank b.id < rank a.id) (fun _ => true)
        (fun c _ _ => rfl) _ ha rfl (by simp)
      simpa using this
    omega

theorem mem_subtreeIds_iff {s : Store} (hacyc : ParentAcyclic s) {i x : Nat} :
    x ∈ subtreeIds s i ↔ Desc s i x := by
  constructor
  · intro h
    obtain ⟨n, _, hd⟩ := mem_subtreeAux.mp h
    exact ⟨n, hd⟩
  · rintro ⟨n, hd⟩
    exact mem_subtreeAux.mpr ⟨n, descN_le_length hacyc hd, hd⟩

theorem self_mem_subtreeIds {s : Store} {i : Nat} : i ∈ subtreeIds s i := by
  unfold subtreeIds
  cases hl : s.length with
  | zero => simp [subtreeAux]
  | succ n => simp [subtreeAux]

theorem desc_child_closure {s : Store} {i q : Nat} {a : Artifact}
    (hd : Desc s i q) (ha : a ∈ s) (hp : a.parent_id = some q) : Desc s i a.id := by
  obtain ⟨n, hn⟩ := hd
  exact ⟨n + 1, a, ha, rfl, q, hp, hn⟩

/-! ### Parent chain lemmas -/

theorem parentChain_eq_none {s : Store} {i fuel : Nat} (hfi : findById s i = none) :
    parentChain s (fuel + 1) i = [] := by
  simp only [parentChain, hfi]

theorem parentChain_eq_pnone {s : Store} {i fuel : Nat} {a : Artifact}
    (hfi : findById s i = some a) (hp : a.parent_id = none) :
    parentChain s (fuel + 1) i = [] := by
  simp only [parentChain, hfi, hp]

theorem parentChain_eq_dangling {s : Store} {i fuel p : Nat} {a : Artifact}
    (hfi : findById s i = some a) (hp : a.parent_id = some p)
    (hdang : findById s p = none) :
    parentChain s (fuel + 1) i = [] := by
  simp only [parentChain, hfi, hp, hdang, Option.isSome_none, Bool.false_eq_true, if_false]

theorem parentChain_eq_step {s : Store} {i fuel p : Nat} {a b : Artifact}
    (hfi : findById s i = some a) (hp : a.parent_id = some p)
    (hb : findById s p = some b) :
    parentChain s (fuel + 1) i = p :: parentChain s fuel p := by
  simp only [parentChain, hfi, hp, hb, Option.isSome_some, if_true]

theorem desc_of_mem_parentChain {s : Store} {fuel i j : Nat}
    (h : j ∈ parentChain s fuel i) : Desc s j i := by
  induction fuel generalizing i with
  | zero => cases h
  | succ fuel ih =>
    cases hfi : findById s i with
    | none => rw [parentChain_eq_none hfi] at h; cases h
    | some a =>
      obtain ⟨ha, haid⟩ := findById_eq_some_iff hfi
      cases hp : a.parent_id with
      | none => rw [parentChain_eq_pnone hfi hp] at h; cases h
      | some p =>
        cases hfp : findById s p with
        | none => rw [parentChain_eq_dangling hfi hp hfp] at h; cases h
        | some b =>
          rw [parentChain_eq_step hfi hp hfp] at h
          rcases List.mem_cons.mp h with rfl | hrest
          · exact ⟨1, a, ha, haid, j, hp, rfl⟩
          · have hd := ih hrest
            have := desc_child_closure hd ha hp
            rwa [haid] at this

theorem parentChain_congr {s t : Store} {W : List Nat}
    (hagree : ∀ j, j ∉ W → findById t j = findById s j)
    (hWt : ∀ w ∈ W, (findById t w).isSome = true) :
    ∀ fuel i, i ∉ W → (∀ j ∈ parentChain t fuel i, j ∉ W) →
      parentChain t fuel i = parentChain s fuel i := by
  intro fuel
  induction fuel with
  | zero => intro i _ _; rfl
  | succ fuel ih =>
    intro i hi hch
    have hfi : findById t i = findById s i := hagree i hi
    cases hlook : findById t i with
    | none => rw [parentChain_eq_none hlook, parentChain_eq_none (hfi ▸ hlook)]
    | some a =>
      have hslook : findById s i = some a := hfi ▸ hlook
      cases hp : a.parent_id with
      | none => rw [parentChain_eq_pnone hlook hp, parentChain_eq_pnone hslook hp]
      | some p =>
        cases hfp : findById t p with
        | none =>
          have hpW : p ∉ W := by
            intro hpw
            have := hWt p hpw
            rw [hfp] at this
            cases this
          have hsfp : findById s p = none := (hagree p hpW) ▸ hfp
          rw [parentChain_eq_dangling hlook hp hfp, parentChain_eq_dangling hslook hp hsfp]
        | some b =>
          have hpW : p ∉ W := by
            apply hch
            rw [parentChain_eq_step hlook hp hfp]
            exact List.mem_cons_self _ _
          have hsfp : findById s p = some b := (hagree p hpW) ▸ hfp
          rw [parentChain_eq_step hlook hp hfp, parentChain_eq_step hslook hp hsfp]
          have hch' : ∀ j ∈ parentChain t fuel p, j ∉ W := by
            intro j hj
            apply hch
            rw [parentChain_eq_step hlook hp hfp]
            exact List.mem_cons_of_mem _ hj
          rw [ih p hpW hch']

theorem parentChain_congr_parent {s t : Store}
    (h : ∀ j, (findById t j).map (fun a => a.parent_id) =
      (findById s j).map (fun a => a.parent_id)) :
    ∀ fuel i, parentChain t fuel i = parentChain s fuel i := by
  intro fuel
  induction fuel with
  | zero => intro i; rfl
  | succ fuel ih =>
    intro i
    have hi := h i
    cases hti : findById t i with
    | none =>
      rw [hti] at hi
      cases hsi : findById s i with
      | none => rw [parentChain_eq_none hti, parentChain_eq_none hsi]
      | some b => rw [hsi] at hi; cases hi
    | some a =>
      rw [hti] at hi
      cases hsi : findById s i with
      | none => rw [hsi] at hi; cases hi
      | some b =>
        rw [hsi] at hi
        have hpp : a.parent_id = b.parent_id := by simpa using hi
        cases hp : b.parent_id with
        | none => rw [parentChain_eq_pnone hti (hpp.trans hp), parentChain_eq_pnone hsi hp]
        | some p =>
          have hps := h p
          cases htp : findById t p with
          | none =>
            rw [htp] at hps
            cases hsp : findById s p with
            | none =>
              rw [parentChain_eq_dangling hti (hpp.trans hp) htp,
                parentChain_eq_dangling hsi hp hsp]
            | some c => rw [hsp] at hps; cases hps
          | some c =>
            rw [htp] at hps
            cases hsp : findById s p with
            | none => rw [hsp] at hps; cases hps
            | some d =>
              rw [parentChain_eq_step hti (hpp.trans hp) htp,
                parentChain_eq_step hsi hp hsp, ih p]

/-! ### Depth, levels and acyclicity -/

theorem parentDepth_eq_level {s : Store} (hn : (storeIds s).Nodup) (hinv : LevelInv s) :
    ∀ fuel (a : Artifact), a ∈ s → a.level ≤ fuel → parentDepth s a.id fuel = a.level := by
  intro fuel
  induction fuel with
  | zero =>
    intro a ha hle
    have : a.level = 0 := Nat.le_zero.mp hle
    simp [parentDepth, parentChain, this]
  | succ fuel ih =>
    intro a ha hle
    have hfa : findById s a.id = some a := findById_of_mem hn ha
    have hlev := hinv a ha
    cases hp : a.parent_id with
    | none =>
      rw [hp] at hlev
      simp only [compute_level] at hlev
      simp [parentDepth, parentChain_eq_pnone hfa hp, hlev]
    | some p =>
      rw [hp] at hlev
      simp only [compute_level] at hlev
      cases hfp : findById s p with
      | none =>
        simp only [hfp] at hlev
        simp [parentDepth, parentChain_eq_dangling hfa hp hfp, hlev]
      | some b =>
        simp only [hfp] at hlev
        obtain ⟨hb, hbid⟩ := findById_eq_some_iff hfp
        have hble : b.level ≤ fuel := by omega
        have := ih b hb hble
        rw [hbid] at this
        simp only [parentDepth, parentChain_eq_step hfa hp hfp, List.length_cons]
        simp only [parentDepth] at this
        omega

theorem parentChain_stable {s : Store} (rank : Nat → Nat)
    (hr : ∀ a ∈ s, ∀ b ∈ s, a.parent_id = some b.id → rank b.id < rank a.id) :
    ∀ fuel1 fuel2 i, (s.filter (fun a => rank a.id < rank i)).length < fuel1 →
      (s.filter (fun a => rank a.id < rank i)).length < fuel2 →
      parentChain s fuel1 i = parentChain s fuel2 i := by
  intro fuel1
  induction fuel1 with
  | zero => intro fuel2 i h1 _; omega
  | succ fuel1 ih =>
    intro fuel2 i h1 h2
    match fuel2, h2 with
    | fuel2 + 1, h2 =>
      cases hfi : findById s i with
      | none => rw [parentChain_eq_none hfi, parentChain_eq_none hfi]
      | some a =>
        obtain ⟨ha, haid⟩ := findById_eq_some_iff hfi
        cases hp : a.parent_id with
        | none => rw [parentChain_eq_pnone hfi hp, parentChain_eq_pnone hfi hp]
        | some p =>
          cases hfp : findById s p with
          | none =>
            rw [parentChain_eq_dangling hfi hp hfp, parentChain_eq_dangling hfi hp hfp]
          | some b =>
            obtain ⟨hb, hbid⟩ := findById_eq_some_iff hfp
            have hrk : rank p < rank i := by
              have := hr a ha b hb (by rw [hbid]; exact hp)
              rwa [hbid, haid] at this
            have hclt : (s.filter (fun c => rank c.id < rank p)).length <
                (s.filter (fun c => rank c.id < rank i)).length := by
              refine @length_filter_lt_of_witness _ _ _ _ ?_ b ?_ ?_ ?_
              · intro c _ hc
                have : rank c.id < rank p := by simpa using hc
                simp only [decide_eq_true_eq]
                omega
              · exact hb
              · simp only [hbid, decide_eq_true_eq]
                exact hrk
              · simp [hbid]
            rw [parentChain_eq_step hfi hp hfp, parentChain_eq_step hfi hp hfp,
              ih fuel2 p (by omega) (by omega)]

theorem exists_level_le {s : Store} (hinv : LevelInv s) :
    ∀ (a : Artifact), a ∈ s → ∀ k, k ≤ a.level → ∃ b ∈ s, b.level = k := by
  have H : ∀ L (a : Artifact), a.level ≤ L → a ∈ s → ∀ k, k ≤ a.level → ∃ b ∈ s, b.level = k := by
    intro L
    induction L with
    | zero =>
      intro a hL ha k hk
      exact ⟨a, ha, by omega⟩
    | succ L ih =>
      intro a hL ha k hk
      by_cases hke : k = a.level
      · exact ⟨a, ha, hke.symm⟩
      · have hlev := hinv a ha
        cases hp : a.parent_id with
        | none =>
          rw [hp] at hlev
          simp only [compute_level] at hlev
          omega
        | some p =>
          rw [hp] at hlev
          simp only [compute_level] at hlev
          cases hfp : findById s p with
          | none => simp only [hfp] at hlev; omega
          | some b =>
            simp only [hfp] at hlev
            obtain ⟨hb, _⟩ := findById_eq_some_iff hfp
            exact ih b (by omega) hb k (by omega)
  intro a ha k hk
  exact H a.level a (le_refl _) ha k hk

theorem level_lt_length {s : Store} (hinv : LevelInv s) {a : Artifact} (ha : a ∈ s) :
    a.level < s.length := by
  have hsub : Finset.range (a.level + 1) ⊆ (s.map (fun b => b.level)).toFinset := by
    intro k hk
    have hk' : k ≤ a.level := by
      have := Finset.mem_range.mp hk
      omega
    obtain ⟨b, hb, hbl⟩ := exists_level_le hinv a ha k hk'
    rw [List.mem_toFinset]
    exact hbl ▸ List.mem_map_of_mem _ hb
  have h1 : a.level + 1 ≤ (s.map (fun b => b.level)).toFinset.card := by
    have := Finset.card_le_card hsub
    simpa using this
  have h2 : (s.map (fun b => b.level)).toFinset.card ≤ s.length := by
    have := (s.map (fun b => b.level)).toFinset_card_le
    simpa using this
  omega

theorem levelInv_acyclic {s : Store} (hn : (storeIds s).Nodup) (hinv : LevelInv s) :
    ParentAcyclic s := by
  refine ⟨fun i => match findById s i with | some a => a.level | none => 0, ?_⟩
  intro a ha b hb hp
  have hfa : findById s a.id = some a := findById_of_mem hn ha
  have hfb : findById s b.id = some b := findById_of_mem hn hb
  have hlev := hinv a ha
  rw [hp] at hlev
  simp only [compute_level, hfb] at hlev
  simp only [hfa, hfb]
  omega

/-! ### Lookup under store modifications -/

theorem findById_map_pres {s : Store} {f : Artifact → Artifact}
    (hid : ∀ a, (f a).id = a.id) (i : Nat) :
    findById (s.map f) i = (findById s i).map f := by
  induction s with
  | nil => rfl
  | cons b t ih =>
    by_cases hb : b.id = i
    · have h1 : ((f b).id == i) = true := by simp [hid, hb]
      have h2 : (b.id == i) = true := by simp [hb]
      simp [findById, List.find?, h1, h2]
    · have h1 : ((f b).id == i) = false := by simp [hid, hb]
      have h2 : (b.id == i) = false := by simp [hb]
      simpa [findById, List.find?, h1, h2] using ih

theorem findById_append_some {s l : Store} {i : Nat} {a : Artifact}
    (h : findById s i = some a) : findById (s ++ l) i = some a := by
  induction s with
  | nil => cases h
  | cons b t ih =>
    by_cases hb : (b.id == i) = true
    · simp only [findById, List.find?, hb] at h ⊢
      simpa using h
    · have hb' : (b.id == i) = false := by simpa using hb
      simp only [findById, List.find?, hb'] at h ⊢
      exact ih h

theorem findById_append_none {s l : Store} {i : Nat}
    (h : findById s i = none) : findById (s ++ l) i = findById l i := by
  induction s with
  | nil => rfl
  | cons b t ih =>
    by_cases hb : (b.id == i) = true
    · simp only [findById, List.find?, hb] at h
      cases h
    · have hb' : (b.id == i) = false := by simpa using hb
      simp only [findById, List.find?, hb'] at h ⊢
      exact ih h

theorem findById_filter {s : Store} (hn : (storeIds s).Nodup) (f : Artifact → Bool) (i : Nat) :
    findById (s.filter f) i =
      match findById s i with
      | none => none
      | some a => if f a then some a else none := by
  induction s with
  | nil => rfl
  | cons b t ih =>
    have hn' : (storeIds t).Nodup := (List.nodup_cons.mp hn).2
    have hbt : b.id ∉ storeIds t := (List.nodup_cons.mp hn).1
    by_cases hb : (b.id == i) = true
    · have hbi : b.id = i := by simpa using hb
      by_cases hf : f b = true
      · rw [List.filter_cons_of_pos hf]
        simp [findById, List.find?, hb, hf]
      · have hf' : f b = false := by simpa using hf
        rw [List.filter_cons_of_neg (by simp [hf'])]
        have htnone : findById t i = none := by
          rw [findById_eq_none_iff]
          intro c hc hci
          exact hbt (hbi ▸ hci ▸ List.mem_map_of_mem (fun x => x.id) hc)
        have hfil : findById (t.filter f) i = none := by
          rw [findById_eq_none_iff]
          intro c hc hci
          have hct : c ∈ t := List.mem_of_mem_filter hc
          exact hbt (hbi ▸ hci ▸ List.mem_map_of_mem (fun x => x.id) hct)
        rw [hfil]
        simp [findById, List.find?, hb, hf']
    · have hb' : (b.id == i) = false := by simpa using hb
      by_cases hf : f b = true
      · rw [List.filter_cons_of_pos hf]
        simp only [findById, List.find?, hb']
        exact ih hn'
      · have hf' : f b = false := by simpa using hf
        rw [List.filter_cons_of_neg (by simp [hf'])]
        simp only [findById, List.find?, hb']
        exact ih hn'

theorem storeIds_map_pres {s : Store} {f : Artifact → Artifact}
    (hid : ∀ a, (f a).id = a.id) : storeIds (s.map f) = storeIds s := by
  unfold storeIds
  rw [List.map_map]
  exact List.map_congr_left (fun a _ => hid a)

theorem setRow_id_pres (i : Nat) (pid : Option Nat) (d : PyVal) (a : Artifact) :
    ((fun a => if a.id == i then { a with parent_id := pid, data := d } else a) a).id = a.id := by
  by_cases h : (a.id == i) = true <;> simp [h]

theorem setData_id_pres (i : Nat) (d : PyVal) (a : Artifact) :
    ((fun a => if a.id == i then { a with data := d } else a) a).id = a.id := by
  by_cases h : (a.id == i) = true <;> simp [h]

theorem reassign_id_pres (s : Store) (ids : List Nat) (a : Artifact) :
    ((fun a => if a.id ∈ ids then { a with level := parentDepth s a.id s.length } else a) a).id
      = a.id := by
  by_cases h : a.id ∈ ids <;> simp [h]

theorem findById_setRow_ne {s : Store} {i j : Nat} {pid : Option Nat} {d : PyVal}
    (hij : j ≠ i) : findById (setRow s i pid d) j = findById s j := by
  rw [setRow, findById_map_pres (setRow_id_pres i pid d) j]
  cases h : findById s j with
  | none => rfl
  | some a =>
    obtain ⟨_, haid⟩ := findById_eq_some_iff h
    simp [haid, hij]

theorem findById_setRow_eq {s : Store} {i : Nat} {pid : Option Nat} {d : PyVal} {a : Artifact}
    (h : findById s i = some a) :
    findById (setRow s i pid d) i = some { a with parent_id := pid, data := d } := by
  rw [setRow, findById_map_pres (setRow_id_pres i pid d) i, h]
  obtain ⟨_, haid⟩ := findById_eq_some_iff h
  simp [haid]

theorem findById_reassign {s : Store} {ids : List Nat} (j : Nat) :
    findById (reassignLevels s ids) j =
      (findById s j).map
        (fun a => if a.id ∈ ids then { a with level := parentDepth s a.id s.length } else a) := by
  rw [reassignLevels, findById_map_pres (reassign_id_pres s ids) j]

theorem reassign_parent_pres {s : Store} {ids : List Nat} (j : Nat) :
    (findById (reassignLevels s ids) j).map (fun a => a.parent_id) =
      (findById s j).map (fun a => a.parent_id) := by
  rw [findById_reassign]
  cases findById s j with
  | none => rfl
  | some a =>
    by_cases h : a.id ∈ ids <;> simp [h]

theorem parentChain_reassign {s : Store} {ids : List Nat} (fuel i : Nat) :
    parentChain (reassignLevels s ids) fuel i = parentChain s fuel i :=
  parentChain_congr_parent (fun j => reassign_parent_pres j) fuel i

theorem storeIds_setRow (s : Store) (i : Nat) (pid : Option Nat) (d : PyVal) :
    storeIds (setRow s i pid d) = storeIds s :=
  storeIds_map_pres (setRow_id_pres i pid d)

theorem storeIds_setData (s : Store) (i : Nat) (d : PyVal) :
    storeIds (setData s i d) = storeIds s :=
  storeIds_map_pres (setData_id_pres i d)

theorem storeIds_reassign (s : Store) (ids : List Nat) :
    storeIds (reassignLevels s ids) = storeIds s :=
  storeIds_map_pres (reassign_id_pres s ids)

/-! ### Preservation of the level invariant -/

theorem compute_level_congr {s t : Store} {pid : Option Nat}
    (h : ∀ q, pid = some q → (findById t q).map (fun a => a.level) =
      (findById s q).map (fun a => a.level)) :
    compute_level t pid = compute_level s pid := by
  cases pid with
  | none => rfl
  | some q =>
    have hq := h q rfl
    simp only [compute_level]
    cases htq : findById t q with
    | none =>
      rw [htq] at hq
      cases hsq : findById s q with
      | none => rfl
      | some b => rw [hsq] at hq; cases hq
    | some a =>
      rw [htq] at hq
      cases hsq : findById s q with
      | none => rw [hsq] at hq; cases hq
      | some b =>
        rw [hsq] at hq
        have hab : a.level = b.level := by simpa using hq
        simp [hab]

theorem compute_level_append {s : Store} {r : Artifact} {pid : Option Nat}
    (h : pid ≠ some r.id) : compute_level (s ++ [r]) pid = compute_level s pid := by
  apply compute_level_congr
  intro q hq
  have hqr : q ≠ r.id := by
    intro he
    exact h (hq.trans (by rw [he]))
  cases hsq : findById s q with
  | none =>
    rw [findById_append_none hsq]
    have : findById [r] q = none := by
      rw [findById_eq_none_iff]
      intro a ha
      rw [List.mem_singleton] at ha
      rw [ha]
      exact fun he => hqr he.symm
    rw [this]
  | some a => rw [findById_append_some hsq]

theorem levelInv_insert {s : Store} {x : ArtifactIn}
    (hinv : LevelInv s)
    (hself : x.parent_id ≠ some x.id)
    (hdang : ∀ a ∈ s, a.parent_id ≠ some x.id) :
    LevelInv (s ++ [⟨x.id, x.parent_id, x.data, compute_level s x.parent_id⟩]) := by
  intro a ha
  rcases List.mem_append.mp ha with has | hax
  · rw [hinv a has]
    exact (compute_level_append (hdang a has)).symm
  · rw [List.mem_singleton] at hax
    subst hax
    exact (compute_level_append hself).symm

theorem levelInv_setData {s : Store} {i : Nat} {d : PyVal} (hinv : LevelInv s) :
    LevelInv (setData s i d) := by
  have hlev : ∀ q, (findById (setData s i d) q).map (fun a => a.level) =
      (findById s q).map (fun a => a.level) := by
    intro q
    rw [setData, findById_map_pres (setData_id_pres i d) q]
    cases findById s q with
    | none => rfl
    | some a => by_cases h : a.id = i <;> simp [h]
  intro a ha
  rw [setData] at ha
  obtain ⟨b, hb, rfl⟩ := List.mem_map.mp ha
  have hlb := hinv b hb
  by_cases h : (b.id == i) = true
  · simp only [h, if_true]
    rw [show ({ b with data := d } : Artifact).level = b.level from rfl, hlb]
    exact (compute_level_congr (fun q _ => hlev q)).symm
  · have h' : (b.id == i) = false := by simpa using h
    simp only [h', Bool.false_eq_true, if_false]
    rw [hlb]
    exact (compute_level_congr (fun q _ => hlev q)).symm

theorem levelInv_reassign {s s1 : Store} {W D : List Nat}
    (hagree : ∀ j, j ∉ W → findById s1 j = findById s j)
    (hWmem : ∀ w ∈ W, (findById s1 w).isSome = true)
    (hWD : ∀ w ∈ W, ∀ z, Desc s1 w z → z ∈ D)
    (hDW : ∀ z ∈ D, ∃ w ∈ W, Desc s1 w z)
    (hn1 : (storeIds s1).Nodup) (hacyc1 : ParentAcyclic s1)
    (hn : (storeIds s).Nodup) (hinv : LevelInv s)
    (hlen : s.length ≤ s1.length) :
    LevelInv (reassignLevels s1 D) := by
  obtain ⟨rank, hr⟩ := hacyc1
  have hWnotD : ∀ j, j ∉ D → j ∉ W := by
    intro j hjD hjW
    exact hjD (hWD j hjW j ⟨0, rfl⟩)
  have hclose : ∀ q, q ∈ D → ∀ (c : Artifact), c ∈ s1 → c.parent_id = some q → c.id ∈ D := by
    intro q hq c hc hcp
    obtain ⟨w, hw, hdesc⟩ := hDW q hq
    exact hWD w hw c.id (desc_child_closure hdesc hc hcp)
  -- levels seen through the reassigned store
  have hlook : ∀ q, findById (reassignLevels s1 D) q =
      (findById s1 q).map
        (fun a => if a.id ∈ D then { a with level := parentDepth s1 a.id s1.length } else a) :=
    fun q => findById_reassign q
  intro a' ha'
  rw [reassignLevels] at ha'
  obtain ⟨a, ha, rfl⟩ := List.mem_map.mp ha'
  have hfa1 : findById s1 a.id = some a := findById_of_mem hn1 ha
  by_cases haD : a.id ∈ D
  · -- recomputed node: its new level is its ancestor count
    simp only [haD, if_true]
    show parentDepth s1 a.id s1.length = _
    have hlpos : 0 < s1.length := List.length_pos.mpr (List.ne_nil_of_mem ha)
    obtain ⟨m, hm⟩ : ∃ m, s1.length = m + 1 := ⟨s1.length - 1, by omega⟩
    cases hp : a.parent_id with
    | none =>
      simp [parentDepth, hm, parentChain_eq_pnone hfa1 hp, compute_level]
    | some p =>
      cases hfp : findById s1 p with
      | none =>
        have hfp' : findById (reassignLevels s1 D) p = none := by
          rw [hlook p, hfp]
          rfl
        simp [parentDepth, hm, parentChain_eq_dangling hfa1 hp hfp, compute_level, hfp']
      | some b =>
        obtain ⟨hb, hbid⟩ := findById_eq_some_iff hfp
        have hstep : parentDepth s1 a.id (m + 1) = parentDepth s1 p m + 1 := by
          simp [parentDepth, parentChain_eq_step hfa1 hp hfp]
        have hrk : rank p < rank a.id := by
          have := hr a ha b hb (by rw [hbid]; exact hp)
          rwa [hbid] at this
        have hcnt_a : (s1.filter (fun c => rank c.id < rank a.id)).length < s1.length := by
          have := @length_filter_lt_of_witness _ s1
            (fun c => rank c.id < rank a.id) (fun _ => true)
            (fun c _ _ => rfl) _ ha rfl (by simp)
          simpa using this
        have hcnt_p : (s1.filter (fun c => rank c.id < rank p)).length <
            (s1.filter (fun c => rank c.id < rank a.id)).length := by
          refine @length_filter_lt_of_witness _ _ _ _ ?_ b ?_ ?_ ?_
          · intro c _ hc
            have : rank c.id < rank p := by simpa using hc
            simp only [decide_eq_true_eq]
            omega
          · exact hb
          · simp only [hbid, decide_eq_true_eq]
            exact hrk
          · simp [hbid]
        rw [← hm] at hstep
        rw [hstep]
        have hfp' : findById (reassignLevels s1 D) p =
            some (if b.id ∈ D then { b with level := parentDepth s1 b.id s1.length } else b) := by
          rw [hlook p, hfp]
          rfl
        simp only [compute_level, hp, hfp']
        by_cases hpD : p ∈ D
        · have hbD : b.id ∈ D := by rw [hbid]; exact hpD
          simp only [hbD, if_true]
          have hstab : parentChain s1 m p = parentChain s1 s1.length p := by
            apply parentChain_stable rank hr
            · omega
            · omega
          rw [hbid]
          simp [parentDepth, hstab]
        · have hbD : b.id ∉ D := by rw [hbid]; exact hpD
          simp only [hbD, if_false]
          have hpW : p ∉ W := hWnotD p hpD
          have hchain_avoid : ∀ j ∈ parentChain s1 m p, j ∉ W := by
            intro j hj hjW
            have hdesc : Desc s1 j p := desc_of_mem_parentChain hj
            exact hpD (hWD j hjW p hdesc)
          have hcongr : parentChain s1 m p = parentChain s m p :=
            parentChain_congr hagree hWmem m p hpW hchain_avoid
          have hbs : b ∈ s := by
            have := hagree p hpW
            rw [hfp] at this
            exact (findById_eq_some_iff this.symm).1
          have hblev : b.level < s.length := level_lt_length hinv hbs
          have hdepth : parentDepth s b.id m = b.level := by
            apply parentDepth_eq_level hn hinv m b hbs
            omega
          rw [hbid] at hdepth
          simp only [parentDepth] at hdepth ⊢
          rw [hcongr, hdepth]
  · -- untouched node: its row and the levels it depends on are unchanged
    simp only [haD, if_false, Bool.false_eq_true]
    have haW : a.id ∉ W := hWnotD a.id haD
    have hfa : findById s a.id = some a := (hagree a.id haW) ▸ hfa1
    have has : a ∈ s := (findById_eq_some_iff hfa).1
    rw [hinv a has]
    apply (compute_level_congr ?_).symm
    intro q hq
    by_cases hqD : q ∈ D
    · exfalso
      exact haD (hclose q hqD a ha (by rw [hq]))
    · have hqW : q ∉ W := hWnotD q hqD
      rw [hlook q, hagree q hqW]
      cases hsq : findById s q with
      | none => rfl
      | some c =>
        obtain ⟨_, hcid⟩ := findById_eq_some_iff hsq
        simp [hcid, hqD]

theorem findById_upsert_ne {s : Store} {x : ArtifactIn} {j : Nat} (hj : j ≠ x.id) :
    findById (upsertRow s x) j = findById s j := by
  unfold upsertRow
  cases hlook : findById s x.id with
  | none =>
    cases hsj : findById s j with
    | none =>
      rw [findById_append_none hsj]
      rw [findById_eq_none_iff]
      intro a ha
      rw [List.mem_singleton] at ha
      rw [ha]
      exact fun he => hj he.symm
    | some a => exact findById_append_some hsj
  | some old => exact findById_setRow_ne hj

theorem findById_upsert_self_isSome (s : Store) (x : ArtifactIn) :
    (findById (upsertRow s x) x.id).isSome = true := by
  unfold upsertRow
  cases hlook : findById s x.id with
  | none =>
    rw [findById_append_none hlook]
    simp [findById, List.find?]
  | some old =>
    rw [findById_setRow_eq hlook]
    rfl

theorem upsert_preserves_isSome {s : Store} {x : ArtifactIn} {j : Nat}
    (h : (findById s j).isSome = true) : (findById (upsertRow s x) j).isSome = true := by
  by_cases hj : j = x.id
  · rw [hj]
    exact findById_upsert_self_isSome s x
  · rw [findById_upsert_ne hj]
    exact h

theorem foldl_upsert_findById_ne {xs : List ArtifactIn} {s : Store} {j : Nat}
    (hj : j ∉ xs.map (fun x => x.id)) :
    findById (xs.foldl upsertRow s) j = findById s j := by
  induction xs generalizing s with
  | nil => rfl
  | cons x xs ih =>
    have hjx : j ≠ x.id := by
      intro he
      exact hj (he ▸ List.mem_cons_self _ _)
    have hjxs : j ∉ xs.map (fun x => x.id) := by
      intro hmem
      exact hj (List.mem_cons_of_mem _ hmem)
    show findById (xs.foldl upsertRow (upsertRow s x)) j = findById s j
    rw [ih hjxs, findById_upsert_ne hjx]

theorem foldl_upsert_preserves_isSome {xs : List ArtifactIn} {s : Store} {j : Nat}
    (h : (findById s j).isSome = true) :
    (findById (xs.foldl upsertRow s) j).isSome = true := by
  induction xs generalizing s with
  | nil => exact h
  | cons y ys ih => exact ih (upsert_preserves_isSome h)

theorem foldl_upsert_isSome {xs : List ArtifactIn} {s : Store} {x : ArtifactIn}
    (hx : x ∈ xs) : (findById (xs.foldl upsertRow s) x.id).isSome = true := by
  induction xs generalizing s with
  | nil => cases hx
  | cons y ys ih =>
    rcases List.mem_cons.mp hx with rfl | hxs
    · show (findById (ys.foldl upsertRow (upsertRow s x)) x.id).isSome = true
      exact foldl_upsert_preserves_isSome (findById_upsert_self_isSome s x)
    · exact ih hxs

theorem foldl_upsert_length {xs : List ArtifactIn} {s : Store} :
    s.length ≤ (xs.foldl upsertRow s).length := by
  induction xs generalizing s with
  | nil => exact le_refl _
  | cons x xs ih =>
    have h1 : s.length ≤ (upsertRow s x).length := by
      unfold upsertRow
      cases findById s x.id with
      | none => simp
      | some old => simp [setRow]
    exact h1.trans ih

theorem save_eq_insert {s : Store} {x : ArtifactIn} (hlook : findById s x.id = none) :
    save s x = s ++ [⟨x.id, x.parent_id, x.data, compute_level s x.parent_id⟩] := by
  simp only [save, hlook]

theorem save_eq_setData {s : Store} {x : ArtifactIn} {old : Artifact}
    (hlook : findById s x.id = some old) (hpe : old.parent_id = x.parent_id) :
    save s x = setData s x.id x.data := by
  simp only [save, hlook, hpe, beq_self_eq_true, if_true]

theorem save_eq_reparent {s : Store} {x : ArtifactIn} {old : Artifact}
    (hlook : findById s x.id = some old) (hpe : old.parent_id ≠ x.parent_id) :
    save s x = reassignLevels (setRow s x.id x.parent_id x.data)
      (subtreeIds (setRow s x.id x.parent_id x.data) x.id) := by
  have hpe' : (old.parent_id == x.parent_id) = false := by simpa using hpe
  simp only [save, hlook, hpe', Bool.false_eq_true, if_false]

/-- The level invariant is preserved by `save` whenever the parent change
introduces no cycle and no existing row's dangling parent reference
collides with a freshly inserted id. -/
theorem levelInv_save {s : Store} {x : ArtifactIn}
    (hn : (storeIds s).Nodup) (hinv : LevelInv s)
    (hself : x.parent_id ≠ some x.id)
    (hdang : findById s x.id = none → ∀ a ∈ s, a.parent_id ≠ some x.id)
    (hacyc1 : ParentAcyclic (setRow s x.id x.parent_id x.data)) :
    LevelInv (save s x) := by
  cases hlook : findById s x.id with
  | none =>
    rw [save_eq_insert hlook]
    exact levelInv_insert hinv hself (hdang hlook)
  | some old =>
    by_cases hpe : old.parent_id = x.parent_id
    · rw [save_eq_setData hlook hpe]
      exact levelInv_setData hinv
    · rw [save_eq_reparent hlook hpe]
      refine @levelInv_reassign s _ [x.id] _ ?_ ?_ ?_ ?_ ?_ hacyc1 hn hinv ?_
      · intro j hj
        exact findById_setRow_ne (by simpa using hj)
      · intro w hw
        rw [List.mem_singleton] at hw
        rw [hw, findById_setRow_eq hlook]
        rfl
      · intro w hw z hz
        rw [List.mem_singleton] at hw
        rw [hw] at hz
        exact (mem_subtreeIds_iff hacyc1).mpr hz
      · intro z hz
        exact ⟨x.id, List.mem_singleton_self _, (mem_subtreeIds_iff hacyc1).mp hz⟩
      · rw [storeIds_setRow]
        exact hn
      · simp [setRow]

/-- The level invariant holds after `save_all` whenever the upserted store
remains duplicate-free and acyclic. -/
theorem levelInv_save_all {s : Store} {xs : List ArtifactIn}
    (hn : (storeIds s).Nodup) (hinv : LevelInv s)
    (hn1 : (storeIds (xs.foldl upsertRow s)).Nodup)
    (hacyc1 : ParentAcyclic (xs.foldl upsertRow s)) :
    LevelInv (save_all s xs) := by
  unfold save_all
  refine @levelInv_reassign s _ (xs.map (fun x => x.id)) _ ?_ ?_ ?_ ?_ hn1 hacyc1 hn hinv
    foldl_upsert_length
  · intro j hj
    exact foldl_upsert_findById_ne hj
  · intro w hw
    obtain ⟨x, hx, rfl⟩ := List.mem_map.mp hw
    exact foldl_upsert_isSome hx
  · intro w hw z hz
    obtain ⟨x, hx, rfl⟩ := List.mem_map.mp hw
    rw [List.mem_flatMap]
    exact ⟨x, hx, (mem_subtreeIds_iff hacyc1).mpr hz⟩
  · intro z hz
    rw [List.mem_flatMap] at hz
    obtain ⟨x, hx, hmem⟩ := hz
    exact ⟨x.id, List.mem_map_of_mem _ hx, (mem_subtreeIds_iff hacyc1).mp hmem⟩

theorem storeIds_save {s : Store} {x : ArtifactIn} (hn : (storeIds s).Nodup) :
    (storeIds (save s x)).Nodup := by
  cases hlook : findById s x.id with
  | none =>
    rw [save_eq_insert hlook]
    show (storeIds (s ++ [⟨x.id, x.parent_id, x.data, compute_level s x.parent_id⟩])).Nodup
    unfold storeIds
    rw [List.map_append, List.nodup_append]
    refine ⟨hn, by simp, ?_⟩
    intro y hy1 hy2
    obtain ⟨a, ha, haid⟩ := List.mem_map.mp hy1
    simp only [List.map_cons, List.map_nil, List.mem_singleton] at hy2
    exact (findById_eq_none_iff.mp hlook) a ha (haid.trans hy2)
  | some old =>
    by_cases hpe : old.parent_id = x.parent_id
    · rw [save_eq_setData hlook hpe, storeIds_setData]
      exact hn
    · rw [save_eq_reparent hlook hpe, storeIds_reassign, storeIds_setRow]
      exact hn

/-- C1: after any `save` or `save_all` completes on a well-formed store
(duplicate-free ids, level invariant holding, no cycle introduced, no
dangling reference colliding with a fresh id), every stored artifact's
level is 0 when its parent reference is absent or names no existing row,
and is its parent's level plus one otherwise; in particular after a save
every stored artifact's level equals its recomputed ancestor count, so a
parent change recomputes the level of the saved node and of every node of
its current subtree. -/
theorem C1_artifact_levels (s : Store) (x : ArtifactIn) (xs : List ArtifactIn)
    (hn : (storeIds s).Nodup) (hinv : LevelInv s)
    (hself : x.parent_id ≠ some x.id)
    (hdang : findById s x.id = none → ∀ a ∈ s, a.parent_id ≠ some x.id)
    (hacyc1 : ParentAcyclic (setRow s x.id x.parent_id x.data))
    (hn2 : (storeIds (xs.foldl upsertRow s)).Nodup)
    (hacyc2 : ParentAcyclic (xs.foldl upsertRow s)) :
    LevelInv (save s x) ∧ LevelInv (save_all s xs) ∧
      ∀ a ∈ save s x, a.level = parentDepth (save s x) a.id (save s x).length := by
  have hsave := levelInv_save hn hinv hself hdang hacyc1
  refine ⟨hsave, levelInv_save_all hn hinv hn2 hacyc2, ?_⟩
  intro a ha
  have hn' : (storeIds (save s x)).Nodup := storeIds_save hn
  have hlev : a.level < (save s x).length := level_lt_length hsave ha
  exact (parentDepth_eq_level hn' hsave (save s x).length a ha (by omega)).symm

/-- Witness for C1 at a concrete store: a fresh insert under an existing
root and a batch whose child row precedes its parent row. -/
theorem C1_artifact_levels_witness :
    LevelInv (save
        [⟨1, none, .pynull, 0⟩, ⟨2, some 1, .pynull, 1⟩, ⟨3, some 2, .pynull, 2⟩,
          ⟨4, none, .pynull, 0⟩] ⟨7, some 1, .pynull⟩) ∧
    LevelInv (save_all
        [⟨1, none, .pynull, 0⟩, ⟨2, some 1, .pynull, 1⟩, ⟨3, some 2, .pynull, 2⟩,
          ⟨4, none, .pynull, 0⟩] [⟨5, some 6, .pynull⟩, ⟨6, none, .pynull⟩]) ∧
    ∀ a ∈ save
        [⟨1, none, .pynull, 0⟩, ⟨2, some 1, .pynull, 1⟩, ⟨3, some 2, .pynull, 2⟩,
          ⟨4, none, .pynull, 0⟩] ⟨7, some 1, .pynull⟩,
      a.level = parentDepth (save
        [⟨1, none, .pynull, 0⟩, ⟨2, some 1, .pynull, 1⟩, ⟨3, some 2, .pynull, 2⟩,
          ⟨4, none, .pynull, 0⟩] ⟨7, some 1, .pynull⟩) a.id
        (save
          [⟨1, none, .pynull, 0⟩, ⟨2, some 1, .pynull, 1⟩, ⟨3, some 2, .pynull, 2⟩,
            ⟨4, none, .pynull, 0⟩] ⟨7, some 1, .pynull⟩).length :=
  C1_artifact_levels
    [⟨1, none, .pynull, 0⟩, ⟨2, some 1, .pynull, 1⟩, ⟨3, some 2, .pynull, 2⟩,
      ⟨4, none, .pynull, 0⟩]
    ⟨7, some 1, .pynull⟩
    [⟨5, some 6, .pynull⟩, ⟨6, none, .pynull⟩]
    (by decide) (by unfold LevelInv; decide) (by decide) (fun _ => by decide)
    ⟨fun i => i, by decide⟩ (by decide)
    ⟨fun i => if i = 6 then 0 else i, by decide⟩

/-! ### Subtree rows and sibling disjointness -/

theorem mem_find_subtree {s : Store} {i : Nat} {r b : Artifact}
    (hacyc : ParentAcyclic s) (hlook : findById s i = some r) :
    b ∈ find_subtree s i ↔ b ∈ s ∧ Desc s i b.id := by
  unfold find_subtree
  rw [hlook]
  rw [List.mem_filter]
  constructor
  · rintro ⟨hb, hmem⟩
    exact ⟨hb, (mem_subtreeIds_iff hacyc).mp (by simpa using hmem)⟩
  · rintro ⟨hb, hd⟩
    exact ⟨hb, by simpa using (mem_subtreeIds_iff hacyc).mpr hd⟩

theorem child_level {s : Store} (hn : (storeIds s).Nodup) (hinv : LevelInv s)
    {a c : Artifact} (ha : a ∈ s) (hc : c ∈ s) (hp : c.parent_id = some a.id) :
    c.level = a.level + 1 := by
  have := hinv c hc
  rw [hp] at this
  simp only [compute_level, findById_of_mem hn ha] at this
  exact this

theorem descN_level {s : Store} (hn : (storeIds s).Nodup) (hinv : LevelInv s) :
    ∀ n {j z : Nat} {b : Artifact}, b ∈ s → b.id = j → DescN s n j z →
      ∃ c ∈ s, c.id = z ∧ c.level = b.level + n := by
  intro n
  induction n with
  | zero =>
    rintro j z b hb hbid rfl
    exact ⟨b, hb, hbid, rfl⟩
  | succ n ih =>
    rintro j z b hb hbid ⟨a, ha, haid, j', hpj, hdn⟩
    match n, hdn with
    | 0, hdn =>
      cases hdn
      have := child_level hn hinv hb ha (by rw [hpj, hbid])
      exact ⟨a, ha, haid, by omega⟩
    | n + 1, hdn =>
      obtain ⟨c', hc', hc'id, hc'lev⟩ := ih hb hbid hdn
      have := child_level hn hinv hc' ha (by rw [hpj, hc'id])
      exact ⟨a, ha, haid, by omega⟩

theorem descN_unique {s : Store} (hn : (storeIds s).Nodup) :
    ∀ n {j1 j2 z : Nat}, DescN s n j1 z → DescN s n j2 z → j1 = j2 := by
  intro n
  induction n with
  | zero =>
    rintro j1 j2 z rfl h2
    exact h2
  | succ n ih =>
    rintro j1 j2 z ⟨a1, ha1, ha1id, p1, hp1, hd1⟩ ⟨a2, ha2, ha2id, p2, hp2, hd2⟩
    have he : a1 = a2 := eq_of_mem_id_eq hn ha1 ha2 (ha1id.trans ha2id.symm)
    subst he
    rw [hp1] at hp2
    cases hp2
    exact ih hd1 hd2

theorem descN_rank_lt {s : Store} (rank : Nat → Nat)
    (hr : ∀ a ∈ s, ∀ b ∈ s, a.parent_id = some b.id → rank b.id < rank a.id) :
    ∀ n {i x : Nat} {b : Artifact}, b ∈ s → b.id = i → DescN s (n + 1) i x →
      rank i < rank x := by
  intro n
  induction n with
  | zero =>
    rintro i x b hb hbid ⟨a, ha, haid, j, hpj, hj⟩
    cases hj
    have := hr a ha b hb (by rwa [hbid])
    rw [hbid, haid] at this
    exact this
  | succ n ih =>
    rintro i x b hb hbid ⟨a, ha, haid, j, hpj, hdn⟩
    have h1 : rank i < rank j := ih hb hbid hdn
    obtain ⟨c, hc, hcid, j2, hpj2, hdn2⟩ := hdn
    have h2 : rank j < rank x := by
      have := hr a ha c hc (by rw [hpj, hcid])
      rwa [hcid, haid] at this
    omega

theorem descN_irrefl {s : Store} (hacyc : ParentAcyclic s)
    {n i : Nat} {b : Artifact} (hb : b ∈ s) (hbid : b.id = i)
    (h : DescN s (n + 1) i i) : False := by
  obtain ⟨rank, hr⟩ := hacyc
  exact absurd (descN_rank_lt rank hr n hb hbid h) (lt_irrefl _)

theorem desc_siblings_disjoint {s : Store} (hn : (storeIds s).Nodup) (hinv : LevelInv s)
    {a c1 c2 : Artifact} {z : Nat} (ha : a ∈ s) (hc1 : c1 ∈ s) (hc2 : c2 ∈ s)
    (hp1 : c1.parent_id = some a.id) (hp2 : c2.parent_id = some a.id)
    (hne : c1.id ≠ c2.id) (hd1 : Desc s c1.id z) (hd2 : Desc s c2.id z) : False := by
  obtain ⟨n1, h1⟩ := hd1
  obtain ⟨n2, h2⟩ := hd2
  obtain ⟨w1, hw1, hw1id, hw1lev⟩ := descN_level hn hinv n1 hc1 rfl h1
  obtain ⟨w2, hw2, hw2id, hw2lev⟩ := descN_level hn hinv n2 hc2 rfl h2
  have hweq : w1 = w2 := eq_of_mem_id_eq hn hw1 hw2 (hw1id.trans hw2id.symm)
  have hl1 : c1.level = a.level + 1 := child_level hn hinv ha hc1 hp1
  have hl2 : c2.level = a.level + 1 := child_level hn hinv ha hc2 hp2
  have hneq : n1 = n2 := by
    subst hweq
    omega
  subst hneq
  exact hne (descN_unique hn n1 h1 h2)

theorem length_filter_id_eq {s : Store} {a : Artifact}
    (hn : (storeIds s).Nodup) (ha : a ∈ s) :
    (s.filter (fun b => b.id == a.id)).length = 1 := by
  induction s with
  | nil => cases ha
  | cons b t ih =>
    have hn' : (storeIds t).Nodup := (List.nodup_cons.mp hn).2
    have hbt : b.id ∉ storeIds t := (List.nodup_cons.mp hn).1
    rcases List.mem_cons.mp ha with hab | hat
    · subst hab
      rw [List.filter_cons_of_pos (by simp)]
      have hzero : t.filter (fun c => c.id == a.id) = [] := by
        rw [List.filter_eq_nil_iff]
        intro c hc
        simp only [beq_iff_eq]
        intro he
        exact hbt (he ▸ List.mem_map_of_mem (fun x => x.id) hc)
      rw [hzero]
      rfl
    · have hba2 : b.id ≠ a.id := by
        intro he
        exact hbt (he ▸ List.mem_map_of_mem (fun x => x.id) hat)
      rw [List.filter_cons_of_neg (by simpa using hba2)]
      exact ih hn' hat

theorem length_filter_any {α β : Type} (l : List α) :
    ∀ (cs : List β) (P : β → α → Bool), cs.Nodup →
      (∀ b ∈ l, ∀ c1 ∈ cs, ∀ c2 ∈ cs, c1 ≠ c2 → ¬(P c1 b = true ∧ P c2 b = true)) →
      (l.filter (fun b => cs.any (fun c => P c b))).length =
        (cs.map (fun c => (l.filter (P c)).length)).sum := by
  intro cs
  induction cs with
  | nil => intro P _ _; simp
  | cons c cs' ih =>
    intro P hnd hdisj
    have hnd' : cs'.Nodup := (List.nodup_cons.mp hnd).2
    have hccs : c ∉ cs' := (List.nodup_cons.mp hnd).1
    have hsplit : (l.filter (fun b => (c :: cs').any (fun d => P d b))).length =
        (l.filter (P c)).length + (l.filter (fun b => cs'.any (fun d => P d b))).length := by
      have := @length_filter_or_disjoint _ l (P c)
        (fun b => cs'.any (fun d => P d b)) ?_
      · simpa [List.any_cons] using this
      · intro b hb ⟨hpc, hany⟩
        obtain ⟨c', hc', hpc'⟩ := List.any_eq_true.mp hany
        have hne : c ≠ c' := fun he => hccs (he ▸ hc')
        exact hdisj b hb c (List.mem_cons_self _ _) c' (List.mem_cons_of_mem _ hc') hne ⟨hpc, hpc'⟩
    rw [hsplit, List.map_cons, List.sum_cons]
    rw [ih P hnd' (fun b hb c1 h1 c2 h2 =>
      hdisj b hb c1 (List.mem_cons_of_mem _ h1) c2 (List.mem_cons_of_mem _ h2))]

/-! ### Tree construction lemmas -/

theorem buildNode_rootId (rows : List Artifact) (h : Option ArtifactHierarchy)
    (cfg : Option Nat) (fuel : Nat) (a : Artifact) :
    (buildNode rows h cfg fuel a).rootId = a.id := by
  cases fuel <;> rfl

theorem sizeList_nil : TreeNode.size.sizeList [] = 0 := rfl

theorem sizeList_cons (t : TreeNode) (ts : List TreeNode) :
    TreeNode.size.sizeList (t :: ts) = t.size + TreeNode.size.sizeList ts := rfl

theorem sizeList_map_sum {α : Type} (f : α → TreeNode) (l : List α) :
    TreeNode.size.sizeList (l.map f) = (l.map (fun c => (f c).size)).sum := by
  induction l with
  | nil => rfl
  | cons c cs ih => simp [sizeList_cons, ih]

theorem edgesList_nil : TreeNode.edges.edgesList [] = [] := rfl

theorem edgesList_cons (t : TreeNode) (ts : List TreeNode) :
    TreeNode.edges.edgesList (t :: ts) = t.edges ++ TreeNode.edges.edgesList ts := rfl

theorem mem_edgesList {e : Nat × Nat} {l : List TreeNode} :
    e ∈ TreeNode.edges.edgesList l ↔ ∃ t ∈ l, e ∈ t.edges := by
  induction l with
  | nil => simp [edgesList_nil]
  | cons t ts ih =>
    rw [edgesList_cons]
    simp only [List.mem_append, List.mem_cons, ih]
    constructor
    · rintro (he | ⟨u, hu, he⟩)
      · exact ⟨t, Or.inl rfl, he⟩
      · exact ⟨u, Or.inr hu, he⟩
    · rintro ⟨u, rfl | hu, he⟩
      · exact Or.inl he
      · exact Or.inr ⟨u, hu, he⟩

theorem buildNode_occurs_label (rows : List Artifact) (h : Option ArtifactHierarchy) :
    ∀ fuel (cfg : Option Nat) (a : Artifact) (u : TreeNode),
      Occurs u (buildNode rows h cfg fuel a) →
      u.level_label = levelLabelOf h u.art.level ∧
        u.hierarchy = h.map ArtifactHierarchy.name := by
  intro fuel
  induction fuel with
  | zero =>
    intro cfg a u hocc
    cases hocc with
    | here => exact ⟨rfl, rfl⟩
    | child hc _ => cases hc
  | succ fuel ih =>
    intro cfg a u hocc
    cases hocc with
    | here => exact ⟨rfl, rfl⟩
    | child hc hu =>
      obtain ⟨crow, _, rfl⟩ := List.mem_map.mp hc
      exact ih none crow u hu

theorem buildNode_occurs_children (rows : List Artifact) (h : Option ArtifactHierarchy) :
    ∀ fuel (cfg : Option Nat) (a : Artifact) (u : TreeNode),
      Occurs u (buildNode rows h cfg fuel a) → ∃ cs, u.children = some cs := by
  intro fuel
  induction fuel with
  | zero =>
    intro cfg a u hocc
    cases hocc with
    | here => exact ⟨[], rfl⟩
    | child hc _ => cases hc
  | succ fuel ih =>
    intro cfg a u hocc
    cases hocc with
    | here => exact ⟨_, rfl⟩
    | child hc hu =>
      obtain ⟨crow, _, rfl⟩ := List.mem_map.mp hc
      exact ih none crow u hu

theorem subtree_row_partition {s : Store} {i : Nat} {r : Artifact}
    (hn : (storeIds s).Nodup) (hinv : LevelInv s) (hlook : findById s i = some r)
    {a : Artifact} (ha : a ∈ s) (hdesc : Desc s i a.id) :
    ((find_subtree s i).filter (fun b => b.id ∈ subtreeIds s a.id)).length =
      1 + (((find_subtree s i).filter (fun b => b.parent_id == some a.id)).map
        (fun c => ((find_subtree s i).filter
          (fun b => b.id ∈ subtreeIds s c.id)).length)).sum := by
  have hacyc := levelInv_acyclic hn hinv
  have hrows_sub : ∀ b, b ∈ find_subtree s i → b ∈ s := by
    intro b hb
    exact ((mem_find_subtree hacyc hlook).mp hb).1
  have hrows_nodup : (storeIds (find_subtree s i)).Nodup := by
    unfold find_subtree
    rw [hlook]
    unfold storeIds at hn ⊢
    exact ((List.filter_sublist s).map (fun b => b.id)).nodup hn
  have hcs_mem : ∀ c, c ∈ (find_subtree s i).filter (fun b => b.parent_id == some a.id) →
      c ∈ s ∧ c.parent_id = some a.id := by
    intro c hc
    rw [List.mem_filter] at hc
    exact ⟨hrows_sub c hc.1, by simpa using hc.2⟩
  -- pointwise decomposition of subtree membership under `a`
  have hpoint : ∀ b ∈ find_subtree s i,
      (decide (b.id ∈ subtreeIds s a.id) : Bool) =
        ((b.id == a.id) ||
          ((find_subtree s i).filter (fun b => b.parent_id == some a.id)).any
            (fun c => decide (b.id ∈ subtreeIds s c.id))) := by
    intro b hb
    have hiff : b.id ∈ subtreeIds s a.id ↔
        (b.id = a.id ∨ ∃ c ∈ (find_subtree s i).filter (fun x => x.parent_id == some a.id),
          b.id ∈ subtreeIds s c.id) := by
      rw [mem_subtreeIds_iff hacyc]
      constructor
      · rintro ⟨n, hdn⟩
        match n, hdn with
        | 0, hdn => exact Or.inl hdn
        | n + 1, hdn =>
          obtain ⟨c, hc, hcp, hdc⟩ := descN_top_decomp.mp hdn
          refine Or.inr ⟨c, ?_, (mem_subtreeIds_iff hacyc).mpr ⟨n, hdc⟩⟩
          rw [List.mem_filter]
          refine ⟨?_, by simpa using hcp⟩
          rw [mem_find_subtree hacyc hlook]
          exact ⟨hc, desc_child_closure hdesc hc hcp⟩
      · rintro (he | ⟨c, hc, hmem⟩)
        · exact ⟨0, he⟩
        · obtain ⟨hcs, hcp⟩ := hcs_mem c hc
          obtain ⟨m, hm⟩ := (mem_subtreeIds_iff hacyc).mp hmem
          exact ⟨m + 1, descN_of_child hcs hcp hm⟩
    by_cases hcase : b.id ∈ subtreeIds s a.id
    · rw [decide_eq_true hcase]
      symm
      rw [Bool.or_eq_true]
      rcases hiff.mp hcase with he | ⟨c, hc, hmem⟩
      · exact Or.inl (by simpa using he)
      · exact Or.inr (List.any_eq_true.mpr ⟨c, hc, decide_eq_true hmem⟩)
    · rw [decide_eq_false hcase]
      symm
      rw [Bool.or_eq_false_iff]
      refine ⟨?_, ?_⟩
      · cases hbe : (b.id == a.id) with
        | false => rfl
        | true => exact absurd (hiff.mpr (Or.inl (by simpa using hbe))) hcase
      · rw [List.any_eq_false]
        intro c hc hdec
        exact hcase (hiff.mpr (Or.inr ⟨c, hc, of_decide_eq_true hdec⟩))
  rw [List.filter_congr hpoint]
  have hdisj : ∀ b ∈ find_subtree s i,
      ¬((b.id == a.id) = true ∧
        (((find_subtree s i).filter (fun x => x.parent_id == some a.id)).any
          (fun c => decide (b.id ∈ subtreeIds s c.id))) = true) := by
    rintro b hb ⟨hba, hany⟩
    obtain ⟨c, hc, hcm⟩ := List.any_eq_true.mp hany
    obtain ⟨hcs, hcp⟩ := hcs_mem c hc
    have hba' : b.id = a.id := by simpa using hba
    have hmem : b.id ∈ subtreeIds s c.id := by simpa using hcm
    obtain ⟨m, hm⟩ := (mem_subtreeIds_iff hacyc).mp hmem
    rw [hba'] at hm
    exact descN_irrefl hacyc ha rfl (descN_of_child hcs hcp hm)
  rw [length_filter_or_disjoint hdisj]
  have h1 : ((find_subtree s i).filter (fun b => b.id == a.id)).length = 1 := by
    apply length_filter_id_eq hrows_nodup
    rw [mem_find_subtree hacyc hlook]
    exact ⟨ha, hdesc⟩
  rw [h1]
  congr 1
  apply length_filter_any
  · have : (find_subtree s i).Nodup := by
      have := hrows_nodup
      unfold storeIds at this
      exact this.of_map
    exact this.filter _
  · intro b hb c1 h1 c2 h2 hne ⟨hm1, hm2⟩
    obtain ⟨hc1s, hc1p⟩ := hcs_mem c1 h1
    obtain ⟨hc2s, hc2p⟩ := hcs_mem c2 h2
    have hidne : c1.id ≠ c2.id := by
      intro he
      exact hne (eq_of_mem_id_eq hn hc1s hc2s he)
    exact desc_siblings_disjoint hn hinv ha hc1s hc2s hc1p hc2p hidne
      ((mem_subtreeIds_iff hacyc).mp (by simpa using hm1))
      ((mem_subtreeIds_iff hacyc).mp (by simpa using hm2))

theorem buildNode_size {s : Store} {i : Nat} {r : Artifact} (h : Option ArtifactHierarchy)
    (hn : (storeIds s).Nodup) (hinv : LevelInv s) (hlook : findById s i = some r) :
    ∀ fuel (cfg : Option Nat) (a : Artifact), a ∈ s → Desc s i a.id →
      ((find_subtree s i).filter (fun b => a.level < b.level)).length < fuel →
      (buildNode (find_subtree s i) h cfg fuel a).size =
        ((find_subtree s i).filter (fun b => b.id ∈ subtreeIds s a.id)).length := by
  have hacyc := levelInv_acyclic hn hinv
  intro fuel
  induction fuel with
  | zero => intro cfg a _ _ hlt; omega
  | succ fuel ih =>
    intro cfg a ha hdesc hlt
    show (TreeNode.node a _ _ _ (some (((find_subtree s i).filter
      (fun b => b.parent_id == some a.id)).map
        (buildNode (find_subtree s i) h none fuel)))).size = _
    rw [show ∀ la lb lc ld cs, (TreeNode.node la lb lc ld (some cs)).size =
      1 + TreeNode.size.sizeList cs from fun _ _ _ _ _ => rfl]
    rw [sizeList_map_sum]
    have hmap : ((find_subtree s i).filter (fun b => b.parent_id == some a.id)).map
        (fun c => (buildNode (find_subtree s i) h none fuel c).size) =
      ((find_subtree s i).filter (fun b => b.parent_id == some a.id)).map
        (fun c => ((find_subtree s i).filter (fun b => b.id ∈ subtreeIds s c.id)).length) := by
      apply List.map_congr_left
      intro c hc
      rw [List.mem_filter] at hc
      obtain ⟨hcrows, hcp⟩ := hc
      have hcp' : c.parent_id = some a.id := by simpa using hcp
      obtain ⟨hcs, hcdesc⟩ := (mem_find_subtree hacyc hlook).mp hcrows
      have hclev : c.level = a.level + 1 := child_level hn hinv ha hcs hcp'
      apply ih none c hcs hcdesc
      have hmu : ((find_subtree s i).filter (fun b => c.level < b.level)).length <
          ((find_subtree s i).filter (fun b => a.level < b.level)).length := by
        refine @length_filter_lt_of_witness _ _ _ _ ?_ c ?_ ?_ ?_
        · intro b _ hb
          have : c.level < b.level := by simpa using hb
          simp only [decide_eq_true_eq]
          omega
        · exact hcrows
        · simp only [decide_eq_true_eq]
          omega
        · simp
      omega
    rw [hmap]
    exact (subtree_row_partition hn hinv hlook ha hdesc).symm

theorem buildNode_edges {s : Store} {i : Nat} {r : Artifact} (h : Option ArtifactHierarchy)
    (hn : (storeIds s).Nodup) (hinv : LevelInv s) (hlook : findById s i = some r) :
    ∀ fuel (cfg : Option Nat) (a : Artifact), a ∈ s → Desc s i a.id →
      ((find_subtree s i).filter (fun b => a.level < b.level)).length < fuel →
      ∀ p c, ((p, c) ∈ (buildNode (find_subtree s i) h cfg fuel a).edges ↔
        ∃ crow ∈ s, crow.id = c ∧ crow.parent_id = some p ∧ Desc s a.id p) := by
  have hacyc := levelInv_acyclic hn hinv
  intro fuel
  induction fuel with
  | zero => intro cfg a _ _ hlt; omega
  | succ fuel ih =>
    intro cfg a ha hdesc hlt p c
    have hchild_mem : ∀ crow, crow ∈ (find_subtree s i).filter
        (fun b => b.parent_id == some a.id) → crow ∈ s ∧ crow.parent_id = some a.id := by
      intro crow hc
      rw [List.mem_filter] at hc
      exact ⟨((mem_find_subtree hacyc hlook).mp hc.1).1, by simpa using hc.2⟩
    have hmu : ∀ crow, crow ∈ (find_subtree s i).filter
        (fun b => b.parent_id == some a.id) →
        ((find_subtree s i).filter (fun b => crow.level < b.level)).length < fuel := by
      intro crow hc
      have hcrows : crow ∈ find_subtree s i := (List.mem_filter.mp hc).1
      obtain ⟨hcs, hcp⟩ := hchild_mem crow hc
      have hclev : crow.level = a.level + 1 := child_level hn hinv ha hcs hcp
      have hlt2 : ((find_subtree s i).filter (fun b => crow.level < b.level)).length <
          ((find_subtree s i).filter (fun b => a.level < b.level)).length := by
        refine @length_filter_lt_of_witness _ _ _ _ ?_ crow ?_ ?_ ?_
        · intro b _ hb
          have : crow.level < b.level := by simpa using hb
          simp only [decide_eq_true_eq]
          omega
        · exact hcrows
        · simp only [decide_eq_true_eq]
          omega
        · simp
      omega
    show (p, c) ∈ (TreeNode.node a _ _ _ (some (((find_subtree s i).filter
      (fun b => b.parent_id == some a.id)).map
        (buildNode (find_subtree s i) h none fuel)))).edges ↔ _
    rw [show ∀ la lb lc ld cs, (TreeNode.node la lb lc ld (some cs)).edges =
      cs.map (fun t => (la.id, t.rootId)) ++ TreeNode.edges.edgesList cs
      from fun _ _ _ _ _ => rfl]
    rw [List.mem_append]
    constructor
    · rintro (hleft | hright)
      · rw [List.map_map, List.mem_map] at hleft
        obtain ⟨crow, hcmem, hpair⟩ := hleft
        simp only [Function.comp, buildNode_rootId, Prod.mk.injEq] at hpair
        obtain ⟨hcs, hcp⟩ := hchild_mem crow hcmem
        exact ⟨crow, hcs, hpair.2, by rw [hcp, hpair.1], ⟨0, hpair.1.symm⟩⟩
      · rw [mem_edgesList] at hright
        obtain ⟨t, ht, hmem⟩ := hright
        rw [List.mem_map] at ht
        obtain ⟨crow, hcmem, rfl⟩ := ht
        obtain ⟨hcs, hcp⟩ := hchild_mem crow hcmem
        obtain ⟨crow', hcs', hcid', hcp', hdesc'⟩ :=
          (ih none crow hcs (desc_child_closure hdesc hcs hcp) (hmu crow hcmem) p c).mp hmem
        obtain ⟨m, hm⟩ := hdesc'
        exact ⟨crow', hcs', hcid', hcp', ⟨m + 1, descN_of_child hcs hcp hm⟩⟩
    · rintro ⟨crow, hcs, rfl, hcp, n, hdn⟩
      match n, hdn with
      | 0, hdn =>
        subst hdn
        apply Or.inl
        rw [List.map_map, List.mem_map]
        refine ⟨crow, ?_, ?_⟩
        · rw [List.mem_filter]
          refine ⟨?_, by simpa using hcp⟩
          rw [mem_find_subtree hacyc hlook]
          exact ⟨hcs, desc_child_closure hdesc hcs hcp⟩
        · simp [Function.comp, buildNode_rootId]
      | n + 1, hdn =>
        obtain ⟨c0, hc0, hc0p, hdc0⟩ := descN_top_decomp.mp hdn
        apply Or.inr
        rw [mem_edgesList]
        have hc0mem : c0 ∈ (find_subtree s i).filter (fun b => b.parent_id == some a.id) := by
          rw [List.mem_filter]
          refine ⟨?_, by simpa using hc0p⟩
          rw [mem_find_subtree hacyc hlook]
          exact ⟨hc0, desc_child_closure hdesc hc0 hc0p⟩
        refine ⟨buildNode (find_subtree s i) h none fuel c0, List.mem_map_of_mem _ hc0mem, ?_⟩
        apply (ih none c0 hc0 (desc_child_closure hdesc hc0 hc0p) (hmu c0 hc0mem) p crow.id).mpr
        exact ⟨crow, hcs, rfl, hcp, ⟨n, hdc0⟩⟩

/-! ### Invariance under reordering of store rows -/

theorem storeIds_perm {s s' : Store} (hperm : s.Perm s') :
    (storeIds s).Perm (storeIds s') := by
  unfold storeIds
  exact hperm.map (fun a => a.id)

theorem findById_perm {s s' : Store} (hn : (storeIds s).Nodup) (hperm : s.Perm s')
    (q : Nat) : findById s' q = findById s q := by
  have hn' : (storeIds s').Nodup := ((storeIds_perm hperm).nodup_iff).mp hn
  cases hsq : findById s q with
  | none =>
    rw [findById_eq_none_iff] at hsq ⊢
    intro a ha
    exact hsq a (hperm.symm.subset ha)
  | some a =>
    obtain ⟨ha, haid⟩ := findById_eq_some_iff hsq
    rw [← haid]
    exact findById_of_mem hn' (hperm.subset ha)

theorem descN_perm {s s' : Store} (hperm : s.Perm s') :
    ∀ n {i x : Nat}, DescN s n i x ↔ DescN s' n i x := by
  intro n
  induction n with
  | zero => intro i x; exact Iff.rfl
  | succ n ih =>
    intro i x
    constructor
    · rintro ⟨a, ha, haid, j, hpj, hdn⟩
      exact ⟨a, hperm.subset ha, haid, j, hpj, ih.mp hdn⟩
    · rintro ⟨a, ha, haid, j, hpj, hdn⟩
      exact ⟨a, hperm.symm.subset ha, haid, j, hpj, ih.mpr hdn⟩

theorem desc_perm {s s' : Store} (hperm : s.Perm s') {i x : Nat} :
    Desc s i x ↔ Desc s' i x := by
  constructor
  · rintro ⟨n, hn⟩
    exact ⟨n, (descN_perm hperm n).mp hn⟩
  · rintro ⟨n, hn⟩
    exact ⟨n, (descN_perm hperm n).mpr hn⟩

theorem levelInv_perm {s s' : Store} (hn : (storeIds s).Nodup) (hperm : s.Perm s')
    (hinv : LevelInv s) : LevelInv s' := by
  intro a ha
  have has : a ∈ s := hperm.symm.subset ha
  rw [hinv a has]
  apply compute_level_congr
  intro q _
  rw [findById_perm hn hperm q]

theorem acyclic_perm {s s' : Store} (hperm : s.Perm s') (hacyc : ParentAcyclic s) :
    ParentAcyclic s' := by
  obtain ⟨rank, hr⟩ := hacyc
  exact ⟨rank, fun a ha b hb hp =>
    hr a (hperm.symm.subset ha) b (hperm.symm.subset hb) hp⟩

theorem find_subtree_length_perm {s s' : Store} (hn : (storeIds s).Nodup)
    (hinv : LevelInv s) (hperm : s.Perm s') (i : Nat) :
    (find_subtree s' i).length = (find_subtree s i).length := by
  have hacyc := levelInv_acyclic hn hinv
  have hacyc' := acyclic_perm hperm hacyc
  cases hsq : findById s i with
  | none =>
    unfold find_subtree
    rw [findById_perm hn hperm i, hsq]
  | some r =>
    unfold find_subtree
    rw [findById_perm hn hperm i, hsq]
    have hp1 : (s'.filter (fun a => a.id ∈ subtreeIds s' i)).Perm
        (s.filter (fun a => a.id ∈ subtreeIds s' i)) :=
      (hperm.symm).filter _
    rw [hp1.length_eq]
    congr 1
    apply List.filter_congr
    intro b _
    apply decide_eq_decide.mpr
    rw [mem_subtreeIds_iff hacyc', mem_subtreeIds_iff hacyc]
    exact (desc_perm hperm).symm

theorem build_tree_eq_none_iff (db : DB) (h : Option ArtifactHierarchy) (i : Nat) :
    build_tree db h i = none ↔ findById db.artifacts i = none := by
  unfold build_tree
  cases findById db.artifacts i <;> simp

theorem build_tree_char (db : DB) (h : Option ArtifactHierarchy) (i : Nat)
    (hn : (storeIds db.artifacts).Nodup) (hinv : LevelInv db.artifacts) :
    ∀ t, build_tree db h i = some t →
      t.size = (find_subtree db.artifacts i).length
      ∧ (∀ p c, (p, c) ∈ t.edges ↔
          ∃ crow ∈ db.artifacts, crow.id = c ∧ crow.parent_id = some p ∧
            Desc db.artifacts i p)
      ∧ (∀ u, Occurs u t → ∃ cs, u.children = some cs)
      ∧ (∀ u, Occurs u t → u.level_label = levelLabelOf h u.art.level ∧
          u.hierarchy = h.map ArtifactHierarchy.name) := by
  intro t ht
  have hacyc := levelInv_acyclic hn hinv
  cases hlook : findById db.artifacts i with
  | none =>
    rw [(build_tree_eq_none_iff db h i).mpr hlook] at ht
    cases ht
  | some r =>
    obtain ⟨hr, hrid⟩ := findById_eq_some_iff hlook
    have ht' : t = buildNode (find_subtree db.artifacts i) h
        (if r.parent_id = none then find_by_root_artifact_id db r.id else none)
        (find_subtree db.artifacts i).length r := by
      have : build_tree db h i = some (buildNode (find_subtree db.artifacts i) h
          (if r.parent_id = none then find_by_root_artifact_id db r.id else none)
          (find_subtree db.artifacts i).length r) := by
        simp only [build_tree, hlook]
      rw [this] at ht
      exact (Option.some.inj ht).symm
    have hrrows : r ∈ find_subtree db.artifacts i := by
      rw [mem_find_subtree hacyc hlook]
      exact ⟨hr, ⟨0, hrid⟩⟩
    have hmu : ((find_subtree db.artifacts i).filter
        (fun b => r.level < b.level)).length < (find_subtree db.artifacts i).length := by
      have := @length_filter_lt_of_witness _ (find_subtree db.artifacts i)
        (fun b => r.level < b.level) (fun _ => true)
        (fun c _ _ => rfl) _ hrrows rfl (by simp)
      simpa using this
    refine ⟨?_, ?_, ?_, ?_⟩
    · rw [ht']
      rw [buildNode_size h hn hinv hlook (find_subtree db.artifacts i).length _ r hr
        ⟨0, hrid⟩ hmu]
      congr 1
      apply List.filter_eq_self.mpr
      intro b hb
      apply decide_eq_true
      rw [mem_subtreeIds_iff hacyc]
      rw [hrid]
      exact ((mem_find_subtree hacyc hlook).mp hb).2
    · intro p c
      rw [ht']
      rw [buildNode_edges h hn hinv hlook (find_subtree db.artifacts i).length _ r hr
        ⟨0, hrid⟩ hmu p c]
      rw [hrid]
    · intro u hocc
      rw [ht'] at hocc
      exact buildNode_occurs_children _ h _ _ r u hocc
    · intro u hocc
      rw [ht'] at hocc
      exact buildNode_occurs_label _ h _ _ r u hocc

theorem build_tree_isSome (db : DB) (h : Option ArtifactHierarchy) (i : Nat) :
    (build_tree db h i).isSome = (findById db.artifacts i).isSome := by
  unfold build_tree
  cases findById db.artifacts i <;> rfl

/-- C2 (amended): `build_tree id` is absent exactly when `id` names no
stored artifact; on a well-formed store every produced tree is rooted at
the requested id, its parent-child edges match the stored `parent_id`
references within the subtree exactly, its node count equals the size of
`find_subtree id`, and every node at every depth carries a non-null
children list. Reordering the stored rows preserves presence, node count
and the edge set, but not the produced tree itself: sibling children
follow row order (see the counterexample), so order independence holds up
to the order of sibling children lists rather than literally. -/
theorem C2_build_tree (db : DB) (h : Option ArtifactHierarchy) (i : Nat)
    (hn : (storeIds db.artifacts).Nodup) (hinv : LevelInv db.artifacts) :
    (build_tree db h i = none ↔ findById db.artifacts i = none)
    ∧ (∀ t, build_tree db h i = some t →
        t.rootId = i
        ∧ t.size = (find_subtree db.artifacts i).length
        ∧ (∀ p c, (p, c) ∈ t.edges ↔
            ∃ crow ∈ db.artifacts, crow.id = c ∧ crow.parent_id = some p ∧
              Desc db.artifacts i p)
        ∧ (∀ u, Occurs u t → ∃ cs, u.children = some cs))
    ∧ (∀ s' : Store, db.artifacts.Perm s' →
        (build_tree ⟨s', db.configIds, db.links⟩ h i).isSome = (build_tree db h i).isSome
        ∧ (∀ t t', build_tree db h i = some t →
            build_tree ⟨s', db.configIds, db.links⟩ h i = some t' →
            t'.size = t.size ∧ ∀ p c, ((p, c) ∈ t'.edges ↔ (p, c) ∈ t.edges))) := by
  refine ⟨build_tree_eq_none_iff db h i, ?_, ?_⟩
  · intro t ht
    have hroot : t.rootId = i := by
      cases hlook : findById db.artifacts i with
      | none =>
        rw [(build_tree_eq_none_iff db h i).mpr hlook] at ht
        cases ht
      | some r =>
        obtain ⟨hr, hrid⟩ := findById_eq_some_iff hlook
        have hb : build_tree db h i = some (buildNode (find_subtree db.artifacts i) h
            (if r.parent_id = none then find_by_root_artifact_id db r.id else none)
            (find_subtree db.artifacts i).length r) := by
          simp only [build_tree, hlook]
        rw [hb] at ht
        rw [← Option.some.inj ht]
        rw [buildNode_rootId]
        exact hrid
    obtain ⟨hsize, hedges, hch, _⟩ := build_tree_char db h i hn hinv t ht
    exact ⟨hroot, hsize, hedges, hch⟩
  · intro s' hperm
    have hn' : (storeIds s').Nodup := ((storeIds_perm hperm).nodup_iff).mp hn
    have hinv' : LevelInv s' := levelInv_perm hn hperm hinv
    constructor
    · rw [build_tree_isSome, build_tree_isSome]
      show (findById s' i).isSome = _
      rw [findById_perm hn hperm i]
    · intro t t' ht ht'
      obtain ⟨hsize, hedges, _, _⟩ := build_tree_char db h i hn hinv t ht
      obtain ⟨hsize', hedges', _, _⟩ :=
        build_tree_char ⟨s', db.configIds, db.links⟩ h i hn' hinv' t' ht'
      constructor
      · rw [hsize, hsize']
        exact find_subtree_length_perm hn hinv hperm i
      · intro p c
        rw [hedges p c, hedges' p c]
        constructor
        · rintro ⟨crow, hc, hcid, hcp, hd⟩
          exact ⟨crow, hperm.symm.subset hc, hcid, hcp, (desc_perm hperm).mpr hd⟩
        · rintro ⟨crow, hc, hcid, hcp, hd⟩
          exact ⟨crow, hperm.subset hc, hcid, hcp, (desc_perm hperm).mp hd⟩

/-- C2 counterexample: the tree produced by `build_tree` is not literally
independent of the order in which the flat subtree rows are returned —
swapping two sibling rows swaps the root's children list. -/
theorem C2_counterexample :
    (List.Perm
      [(⟨1, none, .pynull, 0⟩ : Artifact), ⟨2, some 1, .pynull, 1⟩, ⟨3, some 1, .pynull, 1⟩]
      [⟨1, none, .pynull, 0⟩, ⟨3, some 1, .pynull, 1⟩, ⟨2, some 1, .pynull, 1⟩])
    ∧ (build_tree ⟨[⟨1, none, .pynull, 0⟩, ⟨2, some 1, .pynull, 1⟩,
          ⟨3, some 1, .pynull, 1⟩], [], []⟩ none 1).map
        (fun t => (t.children.getD []).map TreeNode.rootId) ≠
      (build_tree ⟨[⟨1, none, .pynull, 0⟩, ⟨3, some 1, .pynull, 1⟩,
          ⟨2, some 1, .pynull, 1⟩], [], []⟩ none 1).map
        (fun t => (t.children.getD []).map TreeNode.rootId) := by
  constructor
  · exact List.Perm.cons _ (List.Perm.swap _ _ _)
  · intro he
    have h1 : (build_tree ⟨[⟨1, none, .pynull, 0⟩, ⟨2, some 1, .pynull, 1⟩,
          ⟨3, some 1, .pynull, 1⟩], [], []⟩ none 1).map
        (fun t => (t.children.getD []).map TreeNode.rootId) = some [2, 3] := rfl
    have h2 : (build_tree ⟨[⟨1, none, .pynull, 0⟩, ⟨3, some 1, .pynull, 1⟩,
          ⟨2, some 1, .pynull, 1⟩], [], []⟩ none 1).map
        (fun t => (t.children.getD []).map TreeNode.rootId) = some [3, 2] := rfl
    rw [h1, h2] at he
    cases he

/-- Witness for the amended C2 on a concrete three-row store. -/
theorem C2_build_tree_witness :
    (build_tree ⟨[⟨1, none, .pynull, 0⟩, ⟨2, some 1, .pynull, 1⟩,
        ⟨3, some 2, .pynull, 2⟩], [], []⟩ none 1 = none ↔
      findById [⟨1, none, .pynull, 0⟩, ⟨2, some 1, .pynull, 1⟩,
        ⟨3, some 2, .pynull, 2⟩] 1 = none)
    ∧ (∀ t, build_tree ⟨[⟨1, none, .pynull, 0⟩, ⟨2, some 1, .pynull, 1⟩,
            ⟨3, some 2, .pynull, 2⟩], [], []⟩ none 1 = some t →
        t.rootId = 1
        ∧ t.size = (find_subtree [⟨1, none, .pynull, 0⟩, ⟨2, some 1, .pynull, 1⟩,
            ⟨3, some 2, .pynull, 2⟩] 1).length
        ∧ (∀ p c, (p, c) ∈ t.edges ↔
            ∃ crow ∈ [(⟨1, none, .pynull, 0⟩ : Artifact), ⟨2, some 1, .pynull, 1⟩,
                ⟨3, some 2, .pynull, 2⟩], crow.id = c ∧ crow.parent_id = some p ∧
              Desc [⟨1, none, .pynull, 0⟩, ⟨2, some 1, .pynull, 1⟩,
                ⟨3, some 2, .pynull, 2⟩] 1 p)
        ∧ (∀ u, Occurs u t → ∃ cs, u.children = some cs))
    ∧ (∀ s' : Store, List.Perm [(⟨1, none, .pynull, 0⟩ : Artifact), ⟨2, some 1, .pynull, 1⟩,
          ⟨3, some 2, .pynull, 2⟩] s' →
        (build_tree ⟨s', [], []⟩ none 1).isSome =
          (build_tree ⟨[⟨1, none, .pynull, 0⟩, ⟨2, some 1, .pynull, 1⟩,
            ⟨3, some 2, .pynull, 2⟩], [], []⟩ none 1).isSome
        ∧ (∀ t t', build_tree ⟨[⟨1, none, .pynull, 0⟩, ⟨2, some 1, .pynull, 1⟩,
              ⟨3, some 2, .pynull, 2⟩], [], []⟩ none 1 = some t →
            build_tree ⟨s', [], []⟩ none 1 = some t' →
            t'.size = t.size ∧ ∀ p c, ((p, c) ∈ t'.edges ↔ (p, c) ∈ t.edges))) :=
  C2_build_tree ⟨[⟨1, none, .pynull, 0⟩, ⟨2, some 1, .pynull, 1⟩,
    ⟨3, some 2, .pynull, 2⟩], [], []⟩ none 1 (by decide) (by unfold LevelInv; decide)

theorem build_tree_label_occurs (db : DB) (h : Option ArtifactHierarchy) (i : Nat)
    (t u : TreeNode) (ht : build_tree db h i = some t) (hocc : Occurs u t) :
    u.level_label = levelLabelOf h u.art.level ∧
      u.hierarchy = h.map ArtifactHierarchy.name := by
  cases hlook : findById db.artifacts i with
  | none =>
    rw [(build_tree_eq_none_iff db h i).mpr hlook] at ht
    cases ht
  | some r =>
    have ht' : some (buildNode (find_subtree db.artifacts i) h
        (if r.parent_id = none then find_by_root_artifact_id db r.id else none)
        (find_subtree db.artifacts i).length r) = some t := by
      rw [← ht]
      simp only [build_tree, hlook]
    rw [← Option.some.inj ht'] at hocc
    exact buildNode_occurs_label _ h _ _ r u hocc

/-- C7: in every tree-node projection produced by the engine (build_tree,
expand_artifact or the subtree projection), the node's `level_label` is the
configured hierarchy's label for its depth when a hierarchy is configured —
the configured entry when present and the fallback string `"level_{d}"`
otherwise — and the hierarchy name is attached only when a hierarchy was
configured: with no hierarchy both fields are absent. -/
theorem C7_level_labels :
    (∀ (h : ArtifactHierarchy) (d : Nat),
      (∀ l, h.level_labels.lookup d = some l → label_for h d = l)
      ∧ (h.level_labels.lookup d = none → label_for h d = "level_" ++ toString d))
    ∧ (∀ (db : DB) (h : ArtifactHierarchy) (i : Nat) (t u : TreeNode),
        build_tree db (some h) i = some t → Occurs u t →
        u.level_label = some (label_for h u.art.level) ∧ u.hierarchy = some h.name)
    ∧ (∀ (db : DB) (i : Nat) (t u : TreeNode),
        build_tree db none i = some t → Occurs u t →
        u.level_label = none ∧ u.hierarchy = none)
    ∧ (∀ (db : DB) (h : Option ArtifactHierarchy) (i : Nat) (t : TreeNode),
        expand_artifact db h i = some t →
        t.level_label = levelLabelOf h t.art.level ∧
          t.hierarchy = h.map ArtifactHierarchy.name)
    ∧ (∀ (s : Store) (h : Option ArtifactHierarchy) (i : Nat) (t : TreeNode),
        t ∈ manager_find_subtree s h i →
        t.level_label = levelLabelOf h t.art.level ∧
          t.hierarchy = h.map ArtifactHierarchy.name) := by
  refine ⟨?_, ?_, ?_, ?_, ?_⟩
  · intro h d
    constructor
    · intro l hl
      unfold label_for
      rw [hl]
    · intro hl
      unfold label_for
      rw [hl]
  · intro db h i t u ht hocc
    exact build_tree_label_occurs db (some h) i t u ht hocc
  · intro db i t u ht hocc
    exact build_tree_label_occurs db none i t u ht hocc
  · intro db h i t ht
    cases hlook : findById db.artifacts i with
    | none =>
      simp only [expand_artifact, hlook] at ht
      cases ht
    | some a =>
      have ht' : some (TreeNode.node a (levelLabelOf h a.level)
          (h.map ArtifactHierarchy.name)
          (if a.parent_id = none then find_by_root_artifact_id db a.id else none) none)
          = some t := by
        rw [← ht]
        simp only [expand_artifact, hlook]
      rw [← Option.some.inj ht']
      exact ⟨rfl, rfl⟩
  · intro s h i t ht
    unfold manager_find_subtree at ht
    obtain ⟨a, _, rfl⟩ := List.mem_map.mp ht
    exact ⟨rfl, rfl⟩

/-- Witness for C7: configured labels, the fallback label, and the label
decoration of a concretely built tree. -/
theorem C7_level_labels_witness :
    (label_for ⟨"ml_flow", [(0, "train"), (1, "predict")]⟩ 0 = "train")
    ∧ (label_for ⟨"ml_flow", [(0, "train"), (1, "predict")]⟩ 2 = "level_" ++ toString 2)
    ∧ (TreeNode.node ⟨1, none, .pynull, 0⟩ (some "train") (some "ml") none
        (some [])).level_label =
      some (label_for ⟨"ml", [(0, "train")]⟩
        (TreeNode.node ⟨1, none, .pynull, 0⟩ (some "train") (some "ml") none
          (some [])).art.level) := by
  refine ⟨?_, ?_, ?_⟩
  · exact (C7_level_labels.1 ⟨"ml_flow", [(0, "train"), (1, "predict")]⟩ 0).1 "train" rfl
  · exact (C7_level_labels.1 ⟨"ml_flow", [(0, "train"), (1, "predict")]⟩ 2).2 rfl
  · exact (C7_level_labels.2.1 ⟨[⟨1, none, .pynull, 0⟩], [], []⟩ ⟨"ml", [(0, "train")]⟩ 1
      (TreeNode.node ⟨1, none, .pynull, 0⟩ (some "train") (some "ml") none (some []))
      (TreeNode.node ⟨1, none, .pynull, 0⟩ (some "train") (some "ml") none (some []))
      rfl (Occurs.here _)).1

/-- C5: `link_artifact(config_id, artifact_id)` raises NotFound when the
artifact id names no stored artifact, raises Validation when the target
artifact has a non-absent parent, rejects (Conflict, via the storage-level
uniqueness of `artifact_id`) an artifact that is already linked, and on
success creates exactly that one link. -/
theorem C5_link_artifact (db : DB) (cid aid : Nat) :
    (findById db.artifacts aid = none → link_artifact db cid aid = .error .notFound)
    ∧ (∀ a, findById db.artifacts aid = some a → ∀ p, a.parent_id = some p →
        link_artifact db cid aid = .error .validation)
    ∧ (∀ a, findById db.artifacts aid = some a → a.parent_id = none →
        (∃ l ∈ db.links, l.2 = aid) → link_artifact db cid aid = .error .conflict)
    ∧ (∀ a, findById db.artifacts aid = some a → a.parent_id = none →
        (∀ l ∈ db.links, l.2 ≠ aid) →
        link_artifact db cid aid = .ok { db with links := db.links ++ [(cid, aid)] }
        ∧ (db.links ++ [(cid, aid)]).filter (fun l => l.2 == aid) = [(cid, aid)]) := by
  refine ⟨?_, ?_, ?_, ?_⟩
  · intro hlook
    simp only [link_artifact, hlook]
  · intro a hlook p hp
    simp only [link_artifact, hlook, hp]
  · intro a hlook hp hex
    have hany : db.links.any (fun l => l.2 == aid) = true := by
      rw [List.any_eq_true]
      obtain ⟨l, hl, hla⟩ := hex
      exact ⟨l, hl, by simpa using hla⟩
    simp only [link_artifact, hlook, hp, hany, if_true]
  · intro a hlook hp hno
    have hany : db.links.any (fun l => l.2 == aid) = false := by
      rw [List.any_eq_false]
      intro l hl
      cases hbe : (l.2 == aid) with
      | false => exact Bool.false_ne_true
      | true => exact absurd (by simpa using hbe) (hno l hl)
    constructor
    · simp only [link_artifact, hlook, hp, hany, Bool.false_eq_true, if_false]
    · rw [List.filter_append]
      have h1 : db.links.filter (fun l => l.2 == aid) = [] := by
        rw [List.filter_eq_nil_iff]
        intro l hl
        simpa using hno l hl
      rw [h1]
      simp

/-- Witness for C5: the four outcomes on a concrete database — unknown
artifact, non-root artifact, already-linked root, and a fresh root. -/
theorem C5_link_artifact_witness :
    (link_artifact ⟨[⟨1, none, .pynull, 0⟩, ⟨2, some 1, .pynull, 1⟩,
        ⟨3, none, .pynull, 0⟩], [10], [(10, 1)]⟩ 10 99 = .error .notFound)
    ∧ (link_artifact ⟨[⟨1, none, .pynull, 0⟩, ⟨2, some 1, .pynull, 1⟩,
        ⟨3, none, .pynull, 0⟩], [10], [(10, 1)]⟩ 10 2 = .error .validation)
    ∧ (link_artifact ⟨[⟨1, none, .pynull, 0⟩, ⟨2, some 1, .pynull, 1⟩,
        ⟨3, none, .pynull, 0⟩], [10], [(10, 1)]⟩ 11 1 = .error .conflict)
    ∧ (link_artifact ⟨[⟨1, none, .pynull, 0⟩, ⟨2, some 1, .pynull, 1⟩,
        ⟨3, none, .pynull, 0⟩], [10], [(10, 1)]⟩ 11 3 =
      .ok ⟨[⟨1, none, .pynull, 0⟩, ⟨2, some 1, .pynull, 1⟩,
        ⟨3, none, .pynull, 0⟩], [10], [(10, 1), (11, 3)]⟩) := by
  refine ⟨?_, ?_, ?_, ?_⟩
  · exact (C5_link_artifact ⟨[⟨1, none, .pynull, 0⟩, ⟨2, some 1, .pynull, 1⟩,
      ⟨3, none, .pynull, 0⟩], [10], [(10, 1)]⟩ 10 99).1 rfl
  · exact (C5_link_artifact ⟨[⟨1, none, .pynull, 0⟩, ⟨2, some 1, .pynull, 1⟩,
      ⟨3, none, .pynull, 0⟩], [10], [(10, 1)]⟩ 10 2).2.1 ⟨2, some 1, .pynull, 1⟩ rfl 1 rfl
  · exact (C5_link_artifact ⟨[⟨1, none, .pynull, 0⟩, ⟨2, some 1, .pynull, 1⟩,
      ⟨3, none, .pynull, 0⟩], [10], [(10, 1)]⟩ 11 1).2.2.1 ⟨1, none, .pynull, 0⟩ rfl rfl
      ⟨(10, 1), List.mem_singleton_self _, rfl⟩
  · exact ((C5_link_artifact ⟨[⟨1, none, .pynull, 0⟩, ⟨2, some 1, .pynull, 1⟩,
      ⟨3, none, .pynull, 0⟩], [10], [(10, 1)]⟩ 11 3).2.2.2 ⟨3, none, .pynull, 0⟩ rfl rfl
      (by decide)).1

/-! ### Root walk and config lookup -/

theorem getRoot_eq_none {s : Store} {i fuel : Nat} (hfi : findById s i = none) :
    get_root_artifact s (fuel + 1) i = none := by
  simp only [get_root_artifact, hfi]

theorem getRoot_eq_root {s : Store} {i fuel : Nat} {a : Artifact}
    (hfi : findById s i = some a) (hp : a.parent_id = none) :
    get_root_artifact s (fuel + 1) i = some a := by
  simp only [get_root_artifact, hfi, hp]

theorem getRoot_eq_step {s : Store} {i fuel p : Nat} {a b : Artifact}
    (hfi : findById s i = some a) (hp : a.parent_id = some p)
    (hb : findById s p = some b) :
    get_root_artifact s (fuel + 1) i = get_root_artifact s fuel p := by
  simp only [get_root_artifact, hfi, hp, hb, Option.isSome_some, if_true]

theorem get_root_of_desc {s : Store} (hn : (storeIds s).Nodup)
    {r : Artifact} (hr : r ∈ s) (hrp : r.parent_id = none) :
    ∀ n x, DescN s n r.id x → ∀ fuel, n < fuel → get_root_artifact s fuel x = some r := by
  intro n
  induction n with
  | zero =>
    rintro x rfl fuel hf
    match fuel, hf with
    | fuel + 1, _ => exact getRoot_eq_root (findById_of_mem hn hr) hrp
  | succ n ih =>
    rintro x ⟨a, ha, haid, j, hpj, hdn⟩ fuel hf
    match fuel, hf with
    | fuel + 1, hf =>
      have hfa : findById s x = some a := haid ▸ findById_of_mem hn ha
      have hjmem : ∃ b ∈ s, b.id = j := by
        match n, hdn with
        | 0, hdn => exact ⟨r, hr, hdn.symm⟩
        | n + 1, hdn =>
          obtain ⟨b, hb, hbid, _⟩ := hdn
          exact ⟨b, hb, hbid⟩
      obtain ⟨b, hb, hbid⟩ := hjmem
      have hfb : findById s j = some b := hbid ▸ findById_of_mem hn hb
      rw [getRoot_eq_step hfa hpj hfb]
      exact ih j hdn fuel (by omega)

theorem links_find_of_mem {links : List (Nat × Nat)} {C rid : Nat}
    (hlinkN : (links.map (fun l => l.2)).Nodup) (hmem : (C, rid) ∈ links) :
    links.find? (fun l => l.2 == rid) = some (C, rid) := by
  induction links with
  | nil => cases hmem
  | cons l t ih =>
    have hn' : (t.map (fun x => x.2)).Nodup := (List.nodup_cons.mp hlinkN).2
    have hlt : l.2 ∉ t.map (fun x => x.2) := (List.nodup_cons.mp hlinkN).1
    rcases List.mem_cons.mp hmem with rfl | hmt
    · simp [List.find?]
    · have hne : l.2 ≠ rid := by
        intro he
        apply hlt
        rw [he]
        exact List.mem_map.mpr ⟨(C, rid), hmt, rfl⟩
      have : (l.2 == rid) = false := by simpa using hne
      simp only [List.find?, this]
      exact ih hn' hmt

/-- C6: when an artifact `x` belongs to a tree whose root `r` is linked to
config `C` (with `C` present in the config table), `get_config_for_artifact x`
returns `C`, including for every transitive descendant of `r`; it returns
absent when `x` is unknown or when the root of `x`'s tree has no linked
config. -/
theorem C6_get_config_for_artifact (db : DB)
    (hn : (storeIds db.artifacts).Nodup) (hinv : LevelInv db.artifacts)
    (hlinkN : (db.links.map (fun l => l.2)).Nodup) :
    (∀ (r : Artifact) (x : Nat), r ∈ db.artifacts → r.parent_id = none →
      Desc db.artifacts r.id x → ∀ C, (C, r.id) ∈ db.links → C ∈ db.configIds →
        get_config_for_artifact db x = some C)
    ∧ (∀ x, findById db.artifacts x = none → get_config_for_artifact db x = none)
    ∧ (∀ (r : Artifact) (x : Nat), r ∈ db.artifacts → r.parent_id = none →
        Desc db.artifacts r.id x → (∀ l ∈ db.links, l.2 ≠ r.id) →
        get_config_for_artifact db x = none) := by
  have hroot : ∀ (r : Artifact) (x : Nat), r ∈ db.artifacts → r.parent_id = none →
      Desc db.artifacts r.id x →
      get_root_artifact db.artifacts db.artifacts.length x = some r := by
    rintro r x hr hrp ⟨n, hdn⟩
    apply get_root_of_desc hn hr hrp n x hdn
    match n, hdn with
    | 0, hdn =>
      have : 0 < db.artifacts.length := List.length_pos.mpr (List.ne_nil_of_mem hr)
      omega
    | n + 1, hdn =>
      obtain ⟨a, ha, haid, j, hpj, _⟩ := hdn
      obtain ⟨w, hw, hwid, hwlev⟩ := descN_level hn hinv (n + 1) hr rfl ⟨a, ha, haid, j, hpj,
        (by assumption)⟩
      have hr0 : r.level = 0 := by
        have := hinv r hr
        rw [hrp] at this
        simpa [compute_level] using this
      have := level_lt_length hinv hw
      omega
  refine ⟨?_, ?_, ?_⟩
  · intro r x hr hrp hdesc C hC hCid
    simp only [get_config_for_artifact, hroot r x hr hrp hdesc, find_by_root_artifact_id,
      links_find_of_mem hlinkN hC]
    simp [hCid]
  · intro x hlook
    unfold get_config_for_artifact
    cases hl : db.artifacts.length with
    | zero => rfl
    | succ m => rw [getRoot_eq_none hlook]
  · intro r x hr hrp hdesc hno
    have hfind : db.links.find? (fun l => l.2 == r.id) = none := by
      rw [List.find?_eq_none]
      intro l hl
      simpa using hno l hl
    simp only [get_config_for_artifact, hroot r x hr hrp hdesc, find_by_root_artifact_id,
      hfind]

/-- Witness for C6: the config of a grandchild, an unknown id, and a tree
whose root is unlinked, on a concrete database. -/
theorem C6_get_config_for_artifact_witness :
    (get_config_for_artifact ⟨[⟨1, none, .pynull, 0⟩, ⟨2, some 1, .pynull, 1⟩,
        ⟨3, some 2, .pynull, 2⟩, ⟨4, none, .pynull, 0⟩], [10], [(10, 1)]⟩ 3 = some 10)
    ∧ (get_config_for_artifact ⟨[⟨1, none, .pynull, 0⟩, ⟨2, some 1, .pynull, 1⟩,
        ⟨3, some 2, .pynull, 2⟩, ⟨4, none, .pynull, 0⟩], [10], [(10, 1)]⟩ 99 = none)
    ∧ (get_config_for_artifact ⟨[⟨1, none, .pynull, 0⟩, ⟨2, some 1, .pynull, 1⟩,
        ⟨3, some 2, .pynull, 2⟩, ⟨4, none, .pynull, 0⟩], [10], [(10, 1)]⟩ 4 = none) := by
  have hmain := C6_get_config_for_artifact
    ⟨[⟨1, none, .pynull, 0⟩, ⟨2, some 1, .pynull, 1⟩,
      ⟨3, some 2, .pynull, 2⟩, ⟨4, none, .pynull, 0⟩], [10], [(10, 1)]⟩
    (by decide) (by unfold LevelInv; decide) (by decide)
  refine ⟨?_, ?_, ?_⟩
  · apply hmain.1 ⟨1, none, .pynull, 0⟩ 3 (List.mem_cons_self _ _) rfl ?_ 10
      (List.mem_singleton_self _) (List.mem_singleton_self _)
    exact ⟨2, ⟨3, some 2, .pynull, 2⟩,
      List.mem_cons_of_mem _ (List.mem_cons_of_mem _ (List.mem_cons_self _ _)), rfl,
      2, rfl, ⟨2, some 1, .pynull, 1⟩, List.mem_cons_of_mem _ (List.mem_cons_self _ _),
      rfl, 1, rfl, rfl⟩
  · exact hmain.2.1 99 rfl
  · apply hmain.2.2 ⟨4, none, .pynull, 0⟩ 4 ?_ rfl ⟨0, rfl⟩ (by decide)
    exact List.mem_cons_of_mem _ (List.mem_cons_of_mem _
      (List.mem_cons_of_mem _ (List.mem_cons_self _ _)))

/-! ### Stability of subtrees under deletion -/

theorem descN_subset {s1 s2 : Store} (hsub : ∀ a ∈ s1, a ∈ s2) :
    ∀ n {i x : Nat}, DescN s1 n i x → DescN s2 n i x := by
  intro n
  induction n with
  | zero => intro i x h; exact h
  | succ n ih =>
    rintro i x ⟨a, ha, haid, j, hpj, hdn⟩
    exact ⟨a, hsub a ha, haid, j, hpj, ih hdn⟩

theorem descN_filter_keep {s : Store} {keep : Artifact → Bool} :
    ∀ n {i x : Nat}, DescN s n i x → (∀ a ∈ s, Desc s i a.id → keep a = true) →
      DescN (s.filter keep) n i x := by
  intro n
  induction n with
  | zero => intro i x h _; exact h
  | succ n ih =>
    rintro i x ⟨a, ha, haid, j, hpj, hdn⟩ hkeep
    refine ⟨a, ?_, haid, j, hpj, ih hdn hkeep⟩
    rw [List.mem_filter]
    exact ⟨ha, hkeep a ha ⟨n + 1, a, ha, rfl, j, hpj, hdn⟩⟩

theorem desc_roots_disjoint {s : Store} (hn : (storeIds s).Nodup) (hinv : LevelInv s)
    {r1 r2 : Artifact} {z : Nat} (hr1 : r1 ∈ s) (hr2 : r2 ∈ s)
    (hp1 : r1.parent_id = none) (hp2 : r2.parent_id = none)
    (hne : r1.id ≠ r2.id) (hd1 : Desc s r1.id z) (hd2 : Desc s r2.id z) : False := by
  have hl1 : r1.level = 0 := by
    have := hinv r1 hr1
    rw [hp1] at this
    simpa [compute_level] using this
  have hl2 : r2.level = 0 := by
    have := hinv r2 hr2
    rw [hp2] at this
    simpa [compute_level] using this
  obtain ⟨n1, h1⟩ := hd1
  obtain ⟨n2, h2⟩ := hd2
  obtain ⟨w1, hw1, hw1id, hw1lev⟩ := descN_level hn hinv n1 hr1 rfl h1
  obtain ⟨w2, hw2, hw2id, hw2lev⟩ := descN_level hn hinv n2 hr2 rfl h2
  have hweq : w1 = w2 := eq_of_mem_id_eq hn hw1 hw2 (hw1id.trans hw2id.symm)
  have hneq : n1 = n2 := by
    subst hweq
    omega
  subst hneq
  exact hne (descN_unique hn n1 h1 h2)

theorem acyclic_filter {s : Store} (p : Artifact → Bool) (hacyc : ParentAcyclic s) :
    ParentAcyclic (s.filter p) := by
  obtain ⟨rank, hr⟩ := hacyc
  exact ⟨rank, fun a ha b hb hp =>
    hr a (List.mem_of_mem_filter ha) b (List.mem_of_mem_filter hb) hp⟩

theorem levelInv_delete_closed {s : Store} (hn : (storeIds s).Nodup) (hinv : LevelInv s)
    (del : Artifact → Bool)
    (hclosed : ∀ b ∈ s, ∀ q, b.parent_id = some q → ∀ c ∈ s, c.id = q →
      del c = true → del b = true) :
    LevelInv (s.filter (fun b => !(del b))) := by
  intro b hb
  rw [List.mem_filter] at hb
  obtain ⟨hbs, hbkeep⟩ := hb
  rw [hinv b hbs]
  apply (compute_level_congr ?_).symm
  intro q hq
  rw [findById_filter hn (fun b => !(del b)) q]
  cases hsq : findById s q with
  | none => rfl
  | some c =>
    obtain ⟨hcs, hcid⟩ := findById_eq_some_iff hsq
    by_cases hdc : del c = true
    · exfalso
      have := hclosed b hbs q hq c hcs hcid hdc
      rw [this] at hbkeep
      cases hbkeep
    · have : del c = false := by simpa using hdc
      simp [this]

theorem subtree_mem_row {s : Store} {i x : Nat} {r : Artifact}
    (hacyc : ParentAcyclic s) (hlook : findById s i = some r)
    (hx : x ∈ subtreeIds s i) : ∃ b ∈ s, b.id = x := by
  obtain ⟨n, hdn⟩ := (mem_subtreeIds_iff hacyc).mp hx
  match n, hdn with
  | 0, hdn =>
    obtain ⟨hr, hrid⟩ := findById_eq_some_iff hlook
    exact ⟨r, hr, hrid.trans hdn.symm⟩
  | n + 1, hdn =>
    obtain ⟨a, ha, haid, _⟩ := hdn
    exact ⟨a, ha, haid⟩

theorem find_subtree_notmem_iff {s : Store} {i : Nat} {r : Artifact}
    (hacyc : ParentAcyclic s) (hlook : findById s i = some r) (x : Nat) :
    (∀ a ∈ find_subtree s i, x ≠ a.id) ↔ x ∉ subtreeIds s i := by
  constructor
  · intro h hx
    obtain ⟨b, hb, hbid⟩ := subtree_mem_row hacyc hlook hx
    refine h b ?_ hbid.symm
    unfold find_subtree
    rw [hlook, List.mem_filter]
    exact ⟨hb, by simpa [hbid] using hx⟩
  · intro hx a ha heq
    unfold find_subtree at ha
    rw [hlook, List.mem_filter] at ha
    rw [heq] at hx
    exact hx (by simpa using ha.2)

theorem subtreeIds_delete_other {s : Store} (hn : (storeIds s).Nodup) (hinv : LevelInv s)
    {r r' : Artifact} (hr : r ∈ s) (hr' : r' ∈ s) (hpr : r.parent_id = none)
    (hpr' : r'.parent_id = none) (hne : r.id ≠ r'.id) (x : Nat) :
    x ∈ subtreeIds (s.filter (fun b => decide (b.id ∉ subtreeIds s r.id))) r'.id
      ↔ x ∈ subtreeIds s r'.id := by
  have hacyc := levelInv_acyclic hn hinv
  have hacyc2 := acyclic_filter (fun b => decide (b.id ∉ subtreeIds s r.id)) hacyc
  rw [mem_subtreeIds_iff hacyc2, mem_subtreeIds_iff hacyc]
  constructor
  · rintro ⟨n, hd⟩
    exact ⟨n, descN_subset (fun a ha => List.mem_of_mem_filter ha) n hd⟩
  · rintro ⟨n, hd⟩
    refine ⟨n, descN_filter_keep n hd ?_⟩
    intro a ha hdesc
    simp only [decide_eq_true_eq]
    intro hmem
    have hdr : Desc s r.id a.id := (mem_subtreeIds_iff hacyc).mp hmem
    exact desc_roots_disjoint hn hinv hr hr' hpr hpr' hne hdr hdesc

theorem foldl_deleteArtifact (L : List Artifact) :
    ∀ d : DB,
      L.foldl (fun d2 a => deleteArtifactRow d2 a.id) d =
      ⟨d.artifacts.filter (fun b => decide (∀ a ∈ L, b.id ≠ a.id)),
       d.configIds,
       d.links.filter (fun l => decide (∀ a ∈ L, l.2 ≠ a.id))⟩ := by
  induction L with
  | nil =>
    intro d
    cases d
    simp
  | cons a L ih =>
    intro d
    rw [List.foldl_cons, ih]
    simp only [deleteArtifactRow]
    rw [List.filter_filter, List.filter_filter]
    congr 1
    · refine List.filter_congr ?_
      intro b _
      rw [← Bool.decide_and]
      refine decide_eq_decide.mpr ?_
      rw [List.forall_mem_cons]
      exact and_comm
    · refine List.filter_congr ?_
      intro l _
      rw [← Bool.decide_and]
      refine decide_eq_decide.mpr ?_
      rw [List.forall_mem_cons]
      exact and_comm

theorem levelInv_filter_subtree {s : Store} (hn : (storeIds s).Nodup) (hinv : LevelInv s)
    (i : Nat) :
    LevelInv (s.filter (fun b => decide (b.id ∉ subtreeIds s i))) := by
  have hacyc := levelInv_acyclic hn hinv
  have hbridge : s.filter (fun b => decide (b.id ∉ subtreeIds s i))
      = s.filter (fun b => !(decide (b.id ∈ subtreeIds s i))) := by
    refine List.filter_congr ?_
    intro b _
    simp
  rw [hbridge]
  refine levelInv_delete_closed hn hinv (fun b => decide (b.id ∈ subtreeIds s i)) ?_
  intro b hb q hq c _ hcid hdel
  simp only [decide_eq_true_eq] at hdel ⊢
  obtain ⟨n, hdn⟩ := (mem_subtreeIds_iff hacyc).mp hdel
  rw [hcid] at hdn
  exact (mem_subtreeIds_iff hacyc).mpr ⟨n + 1, b, hb, rfl, q, hq, hdn⟩

theorem nodup_ids_filter {s : Store} (hn : (storeIds s).Nodup) (p : Artifact → Bool) :
    (storeIds (s.filter p)).Nodup := by
  unfold storeIds at hn ⊢
  exact ((List.filter_sublist s).map (fun a => a.id)).nodup hn

theorem outer_fold_char (R : List Artifact) :
    ∀ d : DB, (storeIds d.artifacts).Nodup → LevelInv d.artifacts →
      (∀ r ∈ R, r ∈ d.artifacts ∧ r.parent_id = none) →
      (R.map (fun r => r.id)).Nodup →
      R.foldl (fun dd r => (find_subtree dd.artifacts r.id).foldl
          (fun d2 a => deleteArtifactRow d2 a.id) dd) d =
      ⟨d.artifacts.filter (fun b => decide (∀ r ∈ R, b.id ∉ subtreeIds d.artifacts r.id)),
       d.configIds,
       d.links.filter (fun l => decide (∀ r ∈ R, l.2 ∉ subtreeIds d.artifacts r.id))⟩ := by
  induction R with
  | nil =>
    intro d _ _ _ _
    cases d
    simp
  | cons r R ih =>
    intro d hn hinv hroots hRn
    obtain ⟨hrmem, hrroot⟩ := hroots r (List.mem_cons_self r R)
    have hacyc := levelInv_acyclic hn hinv
    have hlook : findById d.artifacts r.id = some r := findById_of_mem hn hrmem
    rw [List.map_cons, List.nodup_cons] at hRn
    obtain ⟨hridR, hRn'⟩ := hRn
    rw [List.foldl_cons]
    have hstep :
        (find_subtree d.artifacts r.id).foldl (fun d2 a => deleteArtifactRow d2 a.id) d
          = ⟨d.artifacts.filter (fun b => decide (b.id ∉ subtreeIds d.artifacts r.id)),
             d.configIds,
             d.links.filter (fun l => decide (l.2 ∉ subtreeIds d.artifacts r.id))⟩ := by
      rw [foldl_deleteArtifact]
      congr 1
      · exact List.filter_congr (fun b _ =>
          decide_eq_decide.mpr (find_subtree_notmem_iff hacyc hlook b.id))
      · exact List.filter_congr (fun l _ =>
          decide_eq_decide.mpr (find_subtree_notmem_iff hacyc hlook l.2))
    have hne : ∀ r' ∈ R, r.id ≠ r'.id := by
      intro r' hr' heq
      exact hridR (heq ▸ List.mem_map_of_mem (fun a => a.id) hr')
    have hsurv : ∀ r' ∈ R, decide (r'.id ∉ subtreeIds d.artifacts r.id) = true := by
      intro r' hr'
      simp only [decide_eq_true_eq]
      intro hmem
      obtain ⟨n, hdn⟩ := (mem_subtreeIds_iff hacyc).mp hmem
      match n, hdn with
      | 0, hdn => exact hne r' hr' hdn.symm
      | n + 1, hdn =>
        obtain ⟨a, ha, haid, j, hpj, _⟩ := hdn
        have : a = r' := eq_of_mem_id_eq hn ha (hroots r' (List.mem_cons_of_mem r hr')).1 haid
        rw [this, (hroots r' (List.mem_cons_of_mem r hr')).2] at hpj
        cases hpj
    have hn1 := nodup_ids_filter hn (fun b => decide (b.id ∉ subtreeIds d.artifacts r.id))
    have hinv1 := levelInv_filter_subtree hn hinv r.id
    have hroots1 : ∀ r' ∈ R,
        r' ∈ d.artifacts.filter (fun b => decide (b.id ∉ subtreeIds d.artifacts r.id)) ∧
          r'.parent_id = none := by
      intro r' hr'
      refine ⟨List.mem_filter.mpr ⟨(hroots r' (List.mem_cons_of_mem r hr')).1, hsurv r' hr'⟩,
        (hroots r' (List.mem_cons_of_mem r hr')).2⟩
    rw [hstep, ih _ hn1 hinv1 hroots1 hRn']
    congr 1
    · rw [List.filter_filter]
      refine List.filter_congr ?_
      intro b _
      rw [← Bool.decide_and]
      refine decide_eq_decide.mpr ?_
      rw [List.forall_mem_cons, and_comm]
      refine and_congr_right fun _ => ?_
      refine forall_congr' fun r' => ?_
      refine imp_congr_right fun hr' => ?_
      refine not_congr ?_
      exact subtreeIds_delete_other hn hinv hrmem
        (hroots r' (List.mem_cons_of_mem r hr')).1 hrroot
        (hroots r' (List.mem_cons_of_mem r hr')).2 (hne r' hr') b.id
    · rw [List.filter_filter]
      refine List.filter_congr ?_
      intro l _
      rw [← Bool.decide_and]
      refine decide_eq_decide.mpr ?_
      rw [List.forall_mem_cons, and_comm]
      refine and_congr_right fun _ => ?_
      refine forall_congr' fun r' => ?_
      refine imp_congr_right fun hr' => ?_
      refine not_congr ?_
      exact subtreeIds_delete_other hn hinv hrmem
        (hroots r' (List.mem_cons_of_mem r hr')).1 hrroot
        (hroots r' (List.mem_cons_of_mem r hr')).2 (hne r' hr') l.2

theorem mem_find_artifacts {db : DB} {cid : Nat} {r : Artifact} :
    r ∈ find_artifacts_for_config db cid ↔
      ∃ l ∈ db.links, l.1 = cid ∧ findById db.artifacts l.2 = some r := by
  unfold find_artifacts_for_config
  rw [List.mem_filterMap]
  constructor
  · rintro ⟨l, hl, hf⟩
    rw [List.mem_filter] at hl
    exact ⟨l, hl.1, by simpa using hl.2, hf⟩
  · rintro ⟨l, hl, hcid, hf⟩
    exact ⟨l, List.mem_filter.mpr ⟨hl, by simp [hcid]⟩, hf⟩

theorem find_artifacts_ids_sublist (s : Store) (cid : Nat) :
    ∀ ls : List (Nat × Nat),
      List.Sublist
        (((ls.filter (fun l => l.1 == cid)).filterMap (fun l => findById s l.2)).map
          (fun a => a.id))
        (ls.map (fun l => l.2)) := by
  intro ls
  induction ls with
  | nil => simp
  | cons l ls ih =>
    rw [List.map_cons, List.filter_cons]
    by_cases hp : (l.1 == cid) = true
    · rw [if_pos hp]
      cases hf : findById s l.2 with
      | none =>
        simp only [List.filterMap_cons, hf]
        exact ih.cons l.2
      | some a =>
        simp only [List.filterMap_cons, hf, List.map_cons]
        have hid : a.id = l.2 := (findById_eq_some_iff hf).2
        rw [hid]
        exact ih.cons₂ l.2
    · rw [if_neg hp]
      exact ih.cons l.2

/-- **C4**: deleting a config by id removes the config row, every artifact in
the subtree rooted at each artifact linked to that config, and all link rows
of that config; artifacts outside every linked subtree survive. Assumes
duplicate-free artifact ids, the level invariant, that linked artifacts are
roots, and duplicate-free linked-artifact ids. -/
theorem C4_config_cascade_delete (db : DB) (cid : Nat)
    (hn : (storeIds db.artifacts).Nodup) (hinv : LevelInv db.artifacts)
    (hroots : ∀ l ∈ db.links, ∀ a ∈ db.artifacts, a.id = l.2 → a.parent_id = none)
    (hlinkN : (db.links.map (fun l => l.2)).Nodup) :
    cid ∉ (config_delete_by_id db cid).configIds ∧
    (∀ r ∈ db.artifacts, (∃ l ∈ db.links, l.1 = cid ∧ l.2 = r.id) →
      ∀ b ∈ db.artifacts, Desc db.artifacts r.id b.id →
        b ∉ (config_delete_by_id db cid).artifacts) ∧
    (∀ l ∈ (config_delete_by_id db cid).links, l.1 ≠ cid) ∧
    (∀ b ∈ db.artifacts,
      (∀ r ∈ db.artifacts, (∃ l ∈ db.links, l.1 = cid ∧ l.2 = r.id) →
        ¬ Desc db.artifacts r.id b.id) →
      b ∈ (config_delete_by_id db cid).artifacts) := by
  have hacyc := levelInv_acyclic hn hinv
  have hRroots : ∀ r ∈ find_artifacts_for_config db cid,
      r ∈ db.artifacts ∧ r.parent_id = none := by
    intro r hr
    obtain ⟨l, hl, hlcid, hf⟩ := mem_find_artifacts.mp hr
    obtain ⟨hrmem, hrid⟩ := findById_eq_some_iff hf
    exact ⟨hrmem, hroots l hl r hrmem hrid⟩
  have hRn : ((find_artifacts_for_config db cid).map (fun r => r.id)).Nodup := by
    have hsub := find_artifacts_ids_sublist db.artifacts cid db.links
    exact hsub.nodup hlinkN
  have hfold := outer_fold_char (find_artifacts_for_config db cid) db hn hinv hRroots hRn
  have hdb : config_delete_by_id db cid =
      ⟨db.artifacts.filter (fun b => decide (∀ r ∈ find_artifacts_for_config db cid,
          b.id ∉ subtreeIds db.artifacts r.id)),
       db.configIds.filter (fun c => c ≠ cid),
       (db.links.filter (fun l => decide (∀ r ∈ find_artifacts_for_config db cid,
          l.2 ∉ subtreeIds db.artifacts r.id))).filter (fun l => l.1 ≠ cid)⟩ := by
    simp only [config_delete_by_id]
    rw [hfold]
    rfl
  refine ⟨?_, ?_, ?_, ?_⟩
  · rw [hdb]
    intro hmem
    rw [List.mem_filter] at hmem
    exact (of_decide_eq_true hmem.2) rfl
  · intro r hr hlink b hb hdesc hmem
    rw [hdb] at hmem
    rw [List.mem_filter] at hmem
    have hall := of_decide_eq_true hmem.2
    obtain ⟨l, hl, hl1, hl2⟩ := hlink
    have hrR : r ∈ find_artifacts_for_config db cid :=
      mem_find_artifacts.mpr ⟨l, hl, hl1, by rw [hl2]; exact findById_of_mem hn hr⟩
    exact hall r hrR ((mem_subtreeIds_iff hacyc).mpr hdesc)
  · intro l hl
    rw [hdb] at hl
    rw [List.mem_filter] at hl
    exact of_decide_eq_true hl.2
  · intro b hb hno
    rw [hdb]
    rw [List.mem_filter]
    refine ⟨hb, decide_eq_true ?_⟩
    intro r hrR
    obtain ⟨l, hl, hl1, hf⟩ := mem_find_artifacts.mp hrR
    obtain ⟨hrmem, hrid⟩ := findById_eq_some_iff hf
    intro hmem
    exact hno r hrmem ⟨l, hl, hl1, hrid.symm⟩ ((mem_subtreeIds_iff hacyc).mp hmem)

theorem C4_config_cascade_delete_witness :
    10 ∉ (config_delete_by_id
      (⟨[⟨1, none, .pynull, 0⟩, ⟨2, some 1, .pynull, 1⟩, ⟨3, some 1, .pynull, 1⟩,
        ⟨4, none, .pynull, 0⟩], [10, 20], [(10, 1), (20, 4)]⟩ : DB) 10).configIds ∧
    (∀ r ∈ (⟨[⟨1, none, .pynull, 0⟩, ⟨2, some 1, .pynull, 1⟩, ⟨3, some 1, .pynull, 1⟩,
        ⟨4, none, .pynull, 0⟩], [10, 20], [(10, 1), (20, 4)]⟩ : DB).artifacts,
      (∃ l ∈ (⟨[⟨1, none, .pynull, 0⟩, ⟨2, some 1, .pynull, 1⟩, ⟨3, some 1, .pynull, 1⟩,
        ⟨4, none, .pynull, 0⟩], [10, 20], [(10, 1), (20, 4)]⟩ : DB).links,
        l.1 = 10 ∧ l.2 = r.id) →
      ∀ b ∈ (⟨[⟨1, none, .pynull, 0⟩, ⟨2, some 1, .pynull, 1⟩, ⟨3, some 1, .pynull, 1⟩,
        ⟨4, none, .pynull, 0⟩], [10, 20], [(10, 1), (20, 4)]⟩ : DB).artifacts,
        Desc (⟨[⟨1, none, .pynull, 0⟩, ⟨2, some 1, .pynull, 1⟩, ⟨3, some 1, .pynull, 1⟩,
          ⟨4, none, .pynull, 0⟩], [10, 20], [(10, 1), (20, 4)]⟩ : DB).artifacts r.id b.id →
        b ∉ (config_delete_by_id
          (⟨[⟨1, none, .pynull, 0⟩, ⟨2, some 1, .pynull, 1⟩, ⟨3, some 1, .pynull, 1⟩,
            ⟨4, none, .pynull, 0⟩], [10, 20], [(10, 1), (20, 4)]⟩ : DB) 10).artifacts) ∧
    (∀ l ∈ (config_delete_by_id
        (⟨[⟨1, none, .pynull, 0⟩, ⟨2, some 1, .pynull, 1⟩, ⟨3, some 1, .pynull, 1⟩,
          ⟨4, none, .pynull, 0⟩], [10, 20], [(10, 1), (20, 4)]⟩ : DB) 10).links,
      l.1 ≠ 10) ∧
    (∀ b ∈ (⟨[⟨1, none, .pynull, 0⟩, ⟨2, some 1, .pynull, 1⟩, ⟨3, some 1, .pynull, 1⟩,
        ⟨4, none, .pynull, 0⟩], [10, 20], [(10, 1), (20, 4)]⟩ : DB).artifacts,
      (∀ r ∈ (⟨[⟨1, none, .pynull, 0⟩, ⟨2, some 1, .pynull, 1⟩, ⟨3, some 1, .pynull, 1⟩,
          ⟨4, none, .pynull, 0⟩], [10, 20], [(10, 1), (20, 4)]⟩ : DB).artifacts,
        (∃ l ∈ (⟨[⟨1, none, .pynull, 0⟩, ⟨2, some 1, .pynull, 1⟩, ⟨3, some 1, .pynull, 1⟩,
          ⟨4, none, .pynull, 0⟩], [10, 20], [(10, 1), (20, 4)]⟩ : DB).links,
          l.1 = 10 ∧ l.2 = r.id) →
        ¬ Desc (⟨[⟨1, none, .pynull, 0⟩, ⟨2, some 1, .pynull, 1⟩, ⟨3, some 1, .pynull, 1⟩,
          ⟨4, none, .pynull, 0⟩], [10, 20], [(10, 1), (20, 4)]⟩ : DB).artifacts r.id b.id) →
      b ∈ (config_delete_by_id
        (⟨[⟨1, none, .pynull, 0⟩, ⟨2, some 1, .pynull, 1⟩, ⟨3, some 1, .pynull, 1⟩,
          ⟨4, none, .pynull, 0⟩], [10, 20], [(10, 1), (20, 4)]⟩ : DB) 10).artifacts) :=
  C4_config_cascade_delete
    (⟨[⟨1, none, .pynull, 0⟩, ⟨2, some 1, .pynull, 1⟩, ⟨3, some 1, .pynull, 1⟩,
      ⟨4, none, .pynull, 0⟩], [10, 20], [(10, 1), (20, 4)]⟩ : DB) 10
    (by decide) (by unfold LevelInv; decide) (by decide) (by decide)

/-! ### Scheduler capacity invariant -/

theorem setStatus_map_id (jobs : List (Nat × JobStatus)) (i : Nat) (st : JobStatus)
    (h : i ∉ jobs.map (fun j => j.1)) :
    jobs.map (fun j => if j.1 == i then (j.1, st) else j) = jobs := by
  induction jobs with
  | nil => rfl
  | cons j jobs ih =>
    rw [List.map_cons] at h
    rw [List.mem_cons] at h
    push_neg at h
    rw [List.map_cons]
    have hji : (j.1 == i) = false := by
      simp only [beq_eq_false_iff_ne]
      exact fun he => h.1 he.symm
    rw [hji]
    simp only [Bool.false_eq_true, if_false]
    rw [ih h.2]

theorem count_setStatus_le (i : Nat) (st : JobStatus) :
    ∀ jobs : List (Nat × JobStatus), (jobs.map (fun j => j.1)).Nodup →
      ((jobs.map (fun j => if j.1 == i then (j.1, st) else j)).filter
          (fun j => j.2 == JobStatus.running)).length ≤
        (jobs.filter (fun j => j.2 == JobStatus.running)).length +
          (if st = JobStatus.running then 1 else 0) := by
  intro jobs
  induction jobs with
  | nil =>
    intro _
    simp
  | cons j jobs ih =>
    intro hnd
    rw [List.map_cons, List.nodup_cons] at hnd
    obtain ⟨hj, hnd'⟩ := hnd
    rw [List.map_cons, List.filter_cons, List.filter_cons]
    by_cases hji : (j.1 == i) = true
    · rw [if_pos hji]
      have hid : i ∉ jobs.map (fun j => j.1) := by
        intro hmem
        exact hj (by rwa [beq_iff_eq.mp hji])
      rw [setStatus_map_id jobs i st hid]
      have hred : ((j.1, st).2 == JobStatus.running) = (st == JobStatus.running) := rfl
      rw [hred]
      by_cases hst : (st == JobStatus.running) = true
      · rw [if_pos hst, if_pos (beq_iff_eq.mp hst)]
        by_cases h2 : (j.2 == JobStatus.running) = true
        · rw [if_pos h2]
          simp only [List.length_cons]
          omega
        · rw [if_neg h2]
          simp only [List.length_cons]
          omega
      · rw [if_neg hst, if_neg (fun he => hst (beq_iff_eq.mpr he))]
        by_cases h2 : (j.2 == JobStatus.running) = true
        · rw [if_pos h2]
          simp only [List.length_cons]
          omega
        · rw [if_neg h2]
          omega
    · have hjif : (j.1 == i) = false := by simpa using hji
      rw [hjif]
      simp only [Bool.false_eq_true, if_false]
      have := ih hnd'
      by_cases h2 : (j.2 == JobStatus.running) = true
      · rw [if_pos h2, if_pos h2]
        simp only [List.length_cons]
        omega
      · rw [if_neg h2, if_neg h2]
        omega

theorem runningCount_setStatus_le (σ : SchedState) (i : Nat) (st : JobStatus)
    (hnd : (jobIds σ).Nodup) :
    runningCount (setStatus σ i st) ≤ runningCount σ +
      (if st = JobStatus.running then 1 else 0) :=
  count_setStatus_le i st σ.jobs hnd

theorem jobIds_setStatus (σ : SchedState) (i : Nat) (st : JobStatus) :
    jobIds (setStatus σ i st) = jobIds σ := by
  unfold jobIds setStatus
  rw [List.map_map]
  refine List.map_congr_left ?_
  intro j _
  by_cases hji : (j.1 == i) = true
  · simp only [Function.comp, hji, if_true]
  · have : (j.1 == i) = false := by simpa using hji
    simp only [Function.comp, this, Bool.false_eq_true, if_false]

theorem runningCount_submit (σ : SchedState) (i : Nat) :
    runningCount { σ with jobs := σ.jobs ++ [(i, JobStatus.pending)] } = runningCount σ := by
  unfold runningCount
  rw [List.filter_append]
  simp

theorem runningCount_delete_le (σ : SchedState) (i : Nat) :
    runningCount { σ with jobs := σ.jobs.filter (fun j => j.1 ≠ i) } ≤ runningCount σ := by
  unfold runningCount
  rw [List.filter_filter]
  refine length_filter_le_of_imp ?_
  intro x _ h
  exact ((Bool.and_eq_true _ _).mp h).1

/-- **C3**: in every scheduler state reachable from a fresh scheduler
configured with `max_concurrency = k`, the number of jobs observed in
status `running` is at most `k`, whatever sequence of submissions, starts,
completions, failures, cancellations and deletions produced it. -/
theorem C3_max_concurrency {k : Nat} {σ : SchedState}
    (h : SchedReachable (some k) σ) : runningCount σ ≤ k := by
  suffices hstr : (jobIds σ).Nodup ∧ σ.maxConcurrency = some k ∧ runningCount σ ≤ k by
    exact hstr.2.2
  induction h with
  | init => exact ⟨List.nodup_nil, rfl, Nat.zero_le k⟩
  | step hr hs ih =>
    obtain ⟨hnd, hmax, hcount⟩ := ih
    cases hs with
    | submit i h =>
      refine ⟨?_, hmax, ?_⟩
      · unfold jobIds at hnd ⊢
        rw [List.map_append]
        rw [List.nodup_append]
        refine ⟨hnd, List.nodup_singleton i, ?_⟩
        intro a ha hai
        rw [List.map_singleton, List.mem_singleton] at hai
        cases hai
        exact h ha
      · rw [runningCount_submit]
        exact hcount
    | start i h hcap =>
      refine ⟨by rw [jobIds_setStatus]; exact hnd, hmax, ?_⟩
      have hlt := hcap k hmax
      have hle := runningCount_setStatus_le _ i JobStatus.running hnd
      rw [if_pos rfl] at hle
      omega
    | complete i h =>
      refine ⟨by rw [jobIds_setStatus]; exact hnd, hmax, ?_⟩
      have hle := runningCount_setStatus_le _ i JobStatus.completed hnd
      rw [if_neg (by intro hc; cases hc)] at hle
      omega
    | fail i h =>
      refine ⟨by rw [jobIds_setStatus]; exact hnd, hmax, ?_⟩
      have hle := runningCount_setStatus_le _ i JobStatus.failed hnd
      rw [if_neg (by intro hc; cases hc)] at hle
      omega
    | cancel i h =>
      refine ⟨by rw [jobIds_setStatus]; exact hnd, hmax, ?_⟩
      have hle := runningCount_setStatus_le _ i JobStatus.canceled hnd
      rw [if_neg (by intro hc; cases hc)] at hle
      omega
    | delete i =>
      refine ⟨?_, hmax, ?_⟩
      · unfold jobIds at hnd ⊢
        exact ((List.filter_sublist _).map (fun j : Nat × JobStatus => j.1)).nodup hnd
      · exact Nat.le_trans (runningCount_delete_le _ i) hcount

theorem C3_max_concurrency_witness :
    SchedReachable (some 1)
      ⟨[(1, JobStatus.running), (2, JobStatus.pending)], some 1⟩ ∧
    runningCount ⟨[(1, JobStatus.running), (2, JobStatus.pending)], some 1⟩ ≤ 1 := by
  have hreach : SchedReachable (some 1)
      ⟨[(1, JobStatus.running), (2, JobStatus.pending)], some 1⟩ :=
    SchedReachable.step
      (SchedReachable.step
        (SchedReachable.step SchedReachable.init
          (SchedStep.submit (initSched (some 1)) 1 (by decide)))
        (SchedStep.submit ⟨[(1, JobStatus.pending)], some 1⟩ 2 (by decide)))
      (SchedStep.start ⟨[(1, JobStatus.pending), (2, JobStatus.pending)], some 1⟩ 1
        (by decide)
        (fun k hk => by injection hk with hk1; rw [← hk1]; decide))
  exact ⟨hreach, C3_max_concurrency hreach⟩

/-! ### Serialization boundary -/

theorem serializable_metadata (v : PyVal) (fo : Bool) :
    is_json_serializable (create_serialization_metadata v fo) = true := rfl

theorem serializableKVs_mapped :
    ∀ kvs : List (String × PyVal),
      is_json_serializable.serializableKVs (kvs.map (fun kv =>
        if is_json_serializable kv.2 then kv
        else (kv.1, create_serialization_metadata kv.2 false))) = true := by
  intro kvs
  induction kvs with
  | nil => rfl
  | cons kv kvs ih =>
    rw [List.map_cons]
    by_cases hser : is_json_serializable kv.2 = true
    · rw [if_pos hser]
      show (is_json_serializable kv.2 && _) = true
      rw [hser, ih]
      rfl
    · rw [if_neg hser]
      show (is_json_serializable (create_serialization_metadata kv.2 false) && _) = true
      rw [serializable_metadata, ih]
      rfl

/-- **C8**: serializing a payload never fails: the serialized payload is
always JSON-serializable; each serializable dict field passes through
unchanged while each non-serializable field is replaced by the metadata
record; a non-dict payload passes through when serializable and is replaced
as a whole otherwise; the metadata record carries the type name, module and
repr, the repr being truncated to 200 characters plus an ellipsis exactly
when it exceeds 200 characters. -/
theorem C8_serialization_metadata :
    (∀ v : PyVal, is_json_serializable (serialize_with_metadata v) = true) ∧
    (∀ kvs : List (String × PyVal), ∃ kvs',
      serialize_with_metadata (.pydict kvs) = .pydict kvs' ∧
      kvs'.map (fun kv => kv.1) = kvs.map (fun kv => kv.1) ∧
      ∀ kv ∈ kvs, (is_json_serializable kv.2 = true → kv ∈ kvs') ∧
        (is_json_serializable kv.2 = false →
          (kv.1, create_serialization_metadata kv.2 false) ∈ kvs')) ∧
    (∀ v : PyVal, (∀ kvs, v ≠ .pydict kvs) →
      (is_json_serializable v = true → serialize_with_metadata v = v) ∧
      (is_json_serializable v = false →
        serialize_with_metadata v = create_serialization_metadata v true)) ∧
    (∀ (v : PyVal) (fo : Bool), ∃ mkvs,
      create_serialization_metadata v fo = .pydict mkvs ∧
      ("_type", PyVal.pystr (typeNameOf v)) ∈ mkvs ∧
      ("_module", PyVal.pystr (moduleOf v)) ∈ mkvs ∧
      ("_repr", PyVal.pystr (String.mk (truncRepr (reprOf v)))) ∈ mkvs) ∧
    (∀ r : List Char,
      (r.length ≤ 200 → truncRepr r = r) ∧
      (r.length > 200 → truncRepr r = r.take 200 ++ "...".data ∧
        (truncRepr r).length = 203)) := by
  refine ⟨?_, ?_, ?_, ?_, ?_⟩
  · intro v
    cases v with
    | pydict kvs =>
      show is_json_serializable.serializableKVs _ = true
      exact serializableKVs_mapped kvs
    | pynull => rfl
    | pybool b => rfl
    | pyint n => rfl
    | pystr s => rfl
    | pylist xs =>
      show is_json_serializable
        (if is_json_serializable (.pylist xs) then PyVal.pylist xs
         else create_serialization_metadata (.pylist xs) true) = true
      by_cases hser : is_json_serializable (PyVal.pylist xs) = true
      · rw [if_pos hser]
        exact hser
      · rw [if_neg hser]
        exact serializable_metadata _ true
    | pyobj ty md r =>
      show is_json_serializable
        (if is_json_serializable (.pyobj ty md r) then PyVal.pyobj ty md r
         else create_serialization_metadata (.pyobj ty md r) true) = true
      rw [if_neg (by intro hc; cases hc)]
      exact serializable_metadata _ true
  · intro kvs
    refine ⟨_, rfl, ?_, ?_⟩
    · rw [List.map_map]
      refine List.map_congr_left ?_
      intro kv _
      by_cases hser : is_json_serializable kv.2 = true
      · rw [Function.comp_apply, if_pos hser]
      · rw [Function.comp_apply, if_neg hser]
    · intro kv hkv
      constructor
      · intro hser
        have hmem := List.mem_map_of_mem (fun kv =>
          if is_json_serializable kv.2 then kv
          else (kv.1, create_serialization_metadata kv.2 false)) hkv
        simp only [hser, if_true] at hmem
        exact hmem
      · intro hser
        have hmem := List.mem_map_of_mem (fun kv =>
          if is_json_serializable kv.2 then kv
          else (kv.1, create_serialization_metadata kv.2 false)) hkv
        simp only [hser, Bool.false_eq_true, if_false] at hmem
        exact hmem
  · intro v hnd
    cases v with
    | pydict kvs => exact absurd rfl (hnd kvs)
    | pynull => exact ⟨fun _ => rfl, fun hc => by cases hc⟩
    | pybool b => exact ⟨fun _ => rfl, fun hc => by cases hc⟩
    | pyint n => exact ⟨fun _ => rfl, fun hc => by cases hc⟩
    | pystr s => exact ⟨fun _ => rfl, fun hc => by cases hc⟩
    | pylist xs =>
      constructor
      · intro hser
        show (if is_json_serializable (.pylist xs) then PyVal.pylist xs
          else create_serialization_metadata (.pylist xs) true) = _
        rw [if_pos hser]
      · intro hser
        show (if is_json_serializable (.pylist xs) then PyVal.pylist xs
          else create_serialization_metadata (.pylist xs) true) = _
        rw [if_neg (by rw [hser]; exact Bool.false_ne_true)]
    | pyobj ty md r =>
      constructor
      · intro hser
        cases hser
      · intro _
        rfl
  · intro v fo
    refine ⟨_, rfl, List.mem_cons_self _ _, ?_, ?_⟩
    · exact List.mem_cons_of_mem _ (List.mem_cons_self _ _)
    · exact List.mem_cons_of_mem _ (List.mem_cons_of_mem _ (List.mem_cons_self _ _))
  · intro r
    constructor
    · intro hle
      unfold truncRepr
      rw [if_neg (by omega)]
    · intro hgt
      unfold truncRepr
      rw [if_pos (by omega)]
      refine ⟨rfl, ?_⟩
      rw [List.length_append, List.length_take]
      have : min 200 r.length = 200 := by omega
      rw [this]
      decide

theorem C8_serialization_metadata_witness :
    serialize_with_metadata (.pyint 5) = .pyint 5 ∧
    serialize_with_metadata (.pyobj "Model" "app" "Model()".data)
      = create_serialization_metadata (.pyobj "Model" "app" "Model()".data) true ∧
    truncRepr "ab".data = "ab".data :=
  ⟨(C8_serialization_metadata.2.2.1 (.pyint 5) (fun _ hc => by cases hc)).1 (by decide),
   (C8_serialization_metadata.2.2.1 (.pyobj "Model" "app" "Model()".data)
      (fun _ hc => by cases hc)).2 (by decide),
   (C8_serialization_metadata.2.2.2.2 "ab".data).1 (by decide)⟩

/-- **C9**: `execute_task` fails synchronously and leaves the manager state
— in particular the submitted jobs — unchanged when no scheduler is
configured, when no artifact manager is configured, when the task id is
unknown, or when the task is disabled; when every precondition holds it
submits exactly one job (routed on the task type) and returns its id. -/
theorem C9_execute_task_sync_errors (m : TaskManagerState) (taskId : Nat) :
    (m.hasScheduler = false →
      execute_task m taskId = (m, .error
        "Task execution requires a scheduler. Use ServiceBuilder.with_jobs() to enable.")) ∧
    (m.hasScheduler = true → m.hasArtifactManager = false →
      execute_task m taskId = (m, .error
        "Task execution requires artifacts. Use ServiceBuilder.with_artifacts() before with_tasks().")) ∧
    (m.hasScheduler = true → m.hasArtifactManager = true →
      findTask m.tasks taskId = none →
      execute_task m taskId = (m, .error "Task not found")) ∧
    (∀ t, m.hasScheduler = true → m.hasArtifactManager = true →
      findTask m.tasks taskId = some t → t.enabled = false →
      execute_task m taskId = (m, .error "Cannot execute disabled task")) ∧
    (∀ t, m.hasScheduler = true → m.hasArtifactManager = true →
      findTask m.tasks taskId = some t → t.enabled = true →
      execute_task m taskId =
        ({ m with
            submitted := m.submitted ++ [(m.nextJobId,
              if t.task_type == "python" then "python" else "shell")],
            nextJobId := m.nextJobId + 1 },
          .ok m.nextJobId)) := by
  refine ⟨?_, ?_, ?_, ?_, ?_⟩
  · intro h1
    simp [execute_task, h1]
  · intro h1 h2
    simp [execute_task, h1, h2]
  · intro h1 h2 hft
    simp [execute_task, h1, h2, hft]
  · intro t h1 h2 hft hen
    simp [execute_task, h1, h2, hft, hen]
  · intro t h1 h2 hft hen
    simp [execute_task, h1, h2, hft, hen]

theorem C9_execute_task_sync_errors_witness :
    execute_task ⟨[⟨1, "train", "python", true, none⟩, ⟨2, "x", "shell", false, none⟩],
        true, true, [], 0⟩ 1 =
      (⟨[⟨1, "train", "python", true, none⟩, ⟨2, "x", "shell", false, none⟩],
        true, true, [(0, "python")], 1⟩, .ok 0) ∧
    execute_task ⟨[⟨1, "train", "python", true, none⟩, ⟨2, "x", "shell", false, none⟩],
        true, true, [], 0⟩ 2 =
      (⟨[⟨1, "train", "python", true, none⟩, ⟨2, "x", "shell", false, none⟩],
        true, true, [], 0⟩, .error "Cannot execute disabled task") ∧
    execute_task ⟨[⟨1, "train", "python", true, none⟩, ⟨2, "x", "shell", false, none⟩],
        true, true, [], 0⟩ 99 =
      (⟨[⟨1, "train", "python", true, none⟩, ⟨2, "x", "shell", false, none⟩],
        true, true, [], 0⟩, .error "Task not found") ∧
    execute_task ⟨[], false, true, [], 0⟩ 1 =
      (⟨[], false, true, [], 0⟩, .error
        "Task execution requires a scheduler. Use ServiceBuilder.with_jobs() to enable.") :=
  ⟨(C9_execute_task_sync_errors _ 1).2.2.2.2 ⟨1, "train", "python", true, none⟩
      rfl rfl rfl rfl,
   (C9_execute_task_sync_errors _ 2).2.2.2.1 ⟨2, "x", "shell", false, none⟩
      rfl rfl rfl rfl,
   (C9_execute_task_sync_errors _ 99).2.2.1 rfl rfl rfl,
   (C9_execute_task_sync_errors _ 1).1 rfl⟩

/-- **C10**: when a python task's registered function raises, the closure
`_execute_python` catches the exception and still returns normally with the
id of a freshly created root artifact whose data records the task snapshot,
a `None` result, and an error record with the exception's type name,
message and traceback; no error escapes to make the surrounding job fail. -/
theorem C10_execute_python_captures (env : PyEnv) (taskId : Nat) (t : TaskRow)
    (f : Option PyVal → Except PyExcInfo PyVal) (e : PyExcInfo)
    (hdb : env.hasDatabase = true) (ham : env.hasArtifactManager = true)
    (hft : findTask env.tasks taskId = some t)
    (hreg : env.registry.lookup t.command = some f)
    (hrun : f t.parameters = .error e)
    (hfresh : findById env.artifacts env.freshId = none) :
    execute_python env taskId =
      (env.artifacts ++ [⟨env.freshId, none,
        .pydict [("task", taskSnapshot t), ("result", .pynull),
          ("error", .pydict [("type", .pystr e.typeName),
            ("message", .pystr e.message),
            ("traceback", .pystr e.traceback)])], 0⟩],
       .ok env.freshId) := by
  simp only [execute_python, hdb, ham, hft, hreg, hrun, Bool.not_true, Bool.false_eq_true,
    if_false]
  rw [save_eq_insert hfresh]
  rfl

theorem C10_execute_python_captures_witness :
    execute_python
      ⟨true, true, [⟨1, "boom", "python", true, none⟩],
        [("boom", fun _ => .error ⟨"ValueError", "bad", "tb"⟩)], [], 0⟩ 1 =
      ([⟨0, none,
        .pydict [("task", taskSnapshot ⟨1, "boom", "python", true, none⟩),
          ("result", .pynull),
          ("error", .pydict [("type", .pystr "ValueError"),
            ("message", .pystr "bad"),
            ("traceback", .pystr "tb")])], 0⟩],
       .ok 0) :=
  C10_execute_python_captures
    ⟨true, true, [⟨1, "boom", "python", true, none⟩],
      [("boom", fun _ => .error ⟨"ValueError", "bad", "tb"⟩)], [], 0⟩ 1
    ⟨1, "boom", "python", true, none⟩
    (fun _ => .error ⟨"ValueError", "bad", "tb"⟩)
    ⟨"ValueError", "bad", "tb"⟩
    rfl rfl rfl rfl rfl rfl

end Chapkit

